import Mathlib

/-!
# simpleChessGame: move generation and move application

A shallow embedding of `src/chessGame/main.js`.

* The globals `board`, `turn`, `history`, `moveList` become the fields of `State`, threaded
  explicitly through `makeMove` and `undo`.
* A board is an 8x8 grid: `board[r][c]` with both indices in `0..7` is `null` (`none`) or a
  piece object (`some`).  A read `board[rr][cc]` at arbitrary integers is `readCell`: a row
  outside `0..7` is `undefined` and indexing it throws a `TypeError`; a column outside
  `0..7` on an existing row gives `undefined`, which like `null` is falsy (`none`).
* `while` loops carry a fuel argument; running out of fuel is the fault `Fault.fuel`,
  distinct from every result.
* The DOM (`render`, `updateStatus`, `renderMoves`) and the selection globals
  (`selected`, `legalMoves`, `flipped`) are presentation and are not part of the embedding.
-/

namespace ChessGame

/-- The `color` field of a piece object and the value of `turn`: the strings "w" and "b". -/
inductive Color where
  | w
  | b
  deriving DecidableEq, Repr

/-- The `type` field of a piece object: the one-letter strings of `PIECES`. -/
inductive Kind where
  | p
  | r
  | n
  | b
  | q
  | k
  deriving DecidableEq, Repr

/-- A piece object `{type, color}`. -/
structure Piece where
  type : Kind
  color : Color
  deriving DecidableEq, Repr

/-- The 8x8 array `board`; a cell is `null` or a piece object. -/
abbrev Board := Fin 8 → Fin 8 → Option Piece

/-- Abnormal completions: a JavaScript `TypeError` (a property of `undefined` or `null` was
read or written), or the embedding's loop fuel ran out. -/
inductive Fault where
  | typeError
  | fuel
  deriving DecidableEq, Repr

instance {ε α : Type} [DecidableEq ε] [DecidableEq α] : DecidableEq (Except ε α)
  | .ok a, .ok b => if h : a = b then isTrue (by rw [h]) else isFalse (fun h1 => h (Except.ok.inj h1))
  | .error a, .error b =>
    if h : a = b then isTrue (by rw [h]) else isFalse (fun h1 => h (Except.error.inj h1))
  | .ok _, .error _ => isFalse (fun h => by cases h)
  | .error _, .ok _ => isFalse (fun h => by cases h)

/-- An entry of the array returned by `calcLegalMoves`: `{r, c, capture, promotion}`. -/
@[ext]
structure Dest where
  r : Int
  c : Int
  capture : Bool
  promotion : Bool
  deriving DecidableEq, Repr

/-- An on-board square `{r, c}` as passed to `makeMove`. -/
structure Square where
  r : Fin 8
  c : Fin 8
  deriving DecidableEq, Repr

/-- The object pushed on `history` by `makeMove`; `promotion` is absent (`none`) unless the
move promoted. -/
structure MoveRecord where
  from_ : Square
  to_ : Square
  piece : Piece
  captured : Option Piece
  prevTurn : Color
  promotion : Option String
  deriving DecidableEq, Repr

/-- The mutable globals of the program that the engine reads and writes. -/
structure State where
  board : Board
  turn : Color
  history : List MoveRecord
  moveList : List String

/-- How a call of `makeMove` ends: normally, or by a thrown `TypeError`; either way the
globals are left as the call mutated them up to that point. -/
inductive Completion where
  | normal (s : State)
  | thrown (s : State)

/-- The globals a completion leaves behind. -/
def Completion.state : Completion → State
  | .normal s => s
  | .thrown s => s

/-- The closure `inside` of `calcLegalMoves`. -/
def inside (rr cc : Int) : Bool :=
  decide (rr ≥ 0) && decide (rr < 8) && decide (cc ≥ 0) && decide (cc < 8)

/-- The expression `board[rr][cc]` for integers `rr`, `cc`. -/
def readCell (board : Board) (rr cc : Int) : Except Fault (Option Piece) :=
  if hr : 0 ≤ rr ∧ rr < 8 then
    if hc : 0 ≤ cc ∧ cc < 8 then
      .ok (board ⟨rr.toNat, by omega⟩ ⟨cc.toNat, by omega⟩)
    else .ok none
  else .error .typeError

/-- The assignment `board[r][c] = v` at an on-board square. -/
def setCell (board : Board) (r c : Fin 8) (v : Option Piece) : Board :=
  fun i j => if i = r ∧ j = c then v else board i j

/-- The closure `push` of `calcLegalMoves`, on the local array `moves`. -/
def push (moves : List Dest) (rr cc : Int) (cap promo : Bool) : List Dest :=
  if inside rr cc then moves ++ [{ r := rr, c := cc, capture := cap, promotion := promo }]
  else moves

/-- The value of `dir`: `p.color == "w" ? -1 : 1`. -/
def dirOf (color : Color) : Int :=
  if color = Color.w then -1 else 1

/-- The promotion argument of the pawn pushes:
`(p.color == "w" && rr == 0) || (p.color == "b" && rr == 7)`. -/
def promoFlag (color : Color) (rr : Int) : Bool :=
  (decide (color = Color.w) && decide (rr = 0)) || (decide (color = Color.b) && decide (rr = 7))

/-- The forward part of `case "p"` (source lines 156-167). -/
def pawnForward (board : Board) (color : Color) (r c : Int) (moves : List Dest) :
    Except Fault (List Dest) :=
  let dir := dirOf color
  if inside (r + dir) c then
    match readCell board (r + dir) c with
    | .error e => .error e
    | .ok (some _) => .ok moves
    | .ok none =>
      let moves1 := push moves (r + dir) c false (promoFlag color (r + dir))
      let startRow : Int := if color = Color.w then 6 else 1
      if r = startRow then
        match readCell board (r + dir * 2) c with
        | .error e => .error e
        | .ok (some _) => .ok moves1
        | .ok none => .ok (push moves1 (r + dir * 2) c false false)
      else .ok moves1
  else .ok moves

/-- The capture loop of `case "p"`: `for (const dc of [-1, 1])` (source lines 169-180). -/
def pawnCaptures (board : Board) (color : Color) (r c : Int) :
    List Int → List Dest → Except Fault (List Dest)
  | [], moves => .ok moves
  | dc :: rest, moves =>
    let rr := r + dirOf color
    let cc := c + dc
    if inside rr cc then
      match readCell board rr cc with
      | .error e => .error e
      | .ok none => pawnCaptures board color r c rest moves
      | .ok (some q) =>
        if q.color ≠ color then
          pawnCaptures board color r c rest (push moves rr cc true (promoFlag color rr))
        else pawnCaptures board color r c rest moves
    else pawnCaptures board color r c rest moves

/-- The body of `case "p"`: the forward moves, then the captures, on the same array. -/
def pawnMoves (board : Board) (color : Color) (r c : Int) : Except Fault (List Dest) :=
  match pawnForward board color r c [] with
  | .error e => .error e
  | .ok moves => pawnCaptures board color r c [-1, 1] moves

/-- The loop body shared by `case "n"` (`forEach`) and `case "k"` (`for ... of`): one step
by each offset `d`. -/
def stepMoves (board : Board) (color : Color) (r c : Int) :
    List (Int × Int) → List Dest → Except Fault (List Dest)
  | [], moves => .ok moves
  | d :: rest, moves =>
    let rr := r + d.1
    let cc := c + d.2
    if inside rr cc then
      match readCell board rr cc with
      | .error e => .error e
      | .ok none => stepMoves board color r c rest (push moves rr cc false false)
      | .ok (some q) =>
        if q.color ≠ color then stepMoves board color r c rest (push moves rr cc true false)
        else stepMoves board color r c rest moves
    else stepMoves board color r c rest moves

/-- The `while (inside(rr, cc))` loop of the cases "b", "r" and "q", for one direction
`(d0, d1)`, started at `(rr, cc)`. -/
def rayLoop (board : Board) (color : Color) (d0 d1 : Int) :
    Nat → Int → Int → List Dest → Except Fault (List Dest)
  | 0, _, _, _ => .error .fuel
  | fuel + 1, rr, cc, moves =>
    if inside rr cc then
      match readCell board rr cc with
      | .error e => .error e
      | .ok none => rayLoop board color d0 d1 fuel (rr + d0) (cc + d1) (push moves rr cc false false)
      | .ok (some q) =>
        if q.color ≠ color then .ok (push moves rr cc true false) else .ok moves
    else .ok moves

/-- The `for (const d of [...])` loop around the ray loop in the cases "b", "r" and "q". -/
def castRays (fuel : Nat) (board : Board) (color : Color) (r c : Int) :
    List (Int × Int) → List Dest → Except Fault (List Dest)
  | [], moves => .ok moves
  | d :: rest, moves =>
    match rayLoop board color d.1 d.2 fuel (r + d.1) (c + d.2) moves with
    | .error e => .error e
    | .ok moves1 => castRays fuel board color r c rest moves1

/-- The offsets of `case "n"`. -/
def knightOffsets : List (Int × Int) :=
  [(-2, -1), (-2, 1), (-1, -2), (-1, 2), (1, -2), (1, 2), (2, -1), (2, 1)]

/-- The directions of `case "b"`. -/
def bishopDirs : List (Int × Int) :=
  [(-1, -1), (-1, 1), (1, -1), (1, 1)]

/-- The directions of `case "r"`. -/
def rookDirs : List (Int × Int) :=
  [(-1, 0), (1, 0), (0, -1), (0, 1)]

/-- The directions of `case "q"` and the offsets of `case "k"`. -/
def queenDirs : List (Int × Int) :=
  [(-1, 0), (1, 0), (0, -1), (0, 1), (-1, -1), (-1, 1), (1, -1), (1, 1)]

/-- The function `calcLegalMoves(r, c)` on the global `board`; `fuel` bounds the
iterations of each ray loop. -/
def calcLegalMoves (fuel : Nat) (board : Board) (r c : Int) : Except Fault (List Dest) :=
  match readCell board r c with
  | .error e => .error e
  | .ok none => .ok []
  | .ok (some p) =>
    match p.type with
    | Kind.p => pawnMoves board p.color r c
    | Kind.n => stepMoves board p.color r c knightOffsets []
    | Kind.b => castRays fuel board p.color r c bishopDirs []
    | Kind.r => castRays fuel board p.color r c rookDirs []
    | Kind.q => castRays fuel board p.color r c queenDirs []
    | Kind.k => stepMoves board p.color r c queenDirs []

/-- The closure `file` of `toAlgebraic`: `String.fromCharCode("a".charCodeAt(0) + c)`. -/
def file (c : Nat) : String :=
  String.singleton (Char.ofNat (97 + c))

/-- The method `toUpperCase` on a string of ASCII characters, the only ones the program
passes to it (the literal "q"); JavaScript's mapping of other characters is not part of
the embedding. -/
def toUpperCase (s : String) : String :=
  String.mk (s.data.map Char.toUpper)

/-- The function `toAlgebraic(from, to, type, captured, promotion)`.  The test
`if (promotion)` fails for `null` and for the empty string. -/
def toAlgebraic (from_ to_ : Square) (_type : Kind) (captured : Option Piece)
    (promotion : Option String) : String :=
  let fromS := file from_.c.val ++ toString (8 - from_.r.val)
  let toS := file to_.c.val ++ toString (8 - to_.r.val)
  let s := fromS ++ (if captured.isSome then "x" else "-") ++ toS
  match promotion with
  | some pr => if pr = "" then s else s ++ ("=" ++ toUpperCase pr)
  | none => s

/-- The value `turn == "w" ? "b" : "w"`. -/
def flipTurn (t : Color) : Color :=
  if t = Color.w then Color.b else Color.w

/-- The function `makeMove(from, to)` for on-board squares; its third parameter
`promotionType` is never read.  When `board[from.r][from.c]` is `null`, the test
`piece.type == "p"` throws after the two board writes and before anything is pushed. -/
def makeMove (s : State) (from_ to_ : Square) : Completion :=
  let piece := s.board from_.r from_.c
  let captured := s.board to_.r to_.c
  let board1 := setCell s.board to_.r to_.c piece
  let board2 := setCell board1 from_.r from_.c none
  match piece with
  | none => .thrown { s with board := board2 }
  | some pc =>
    let promotes : Bool := decide (pc.type = Kind.p) && (decide (to_.r.val = 0) || decide (to_.r.val = 7))
    let board3 :=
      if promotes then setCell board2 to_.r to_.c (some { type := Kind.q, color := pc.color })
      else board2
    let promotion : Option String := if promotes then some "q" else none
    let moveRecord : MoveRecord :=
      { from_ := from_, to_ := to_, piece := pc, captured := captured, prevTurn := s.turn,
        promotion := promotion }
    .normal
      { board := board3
        turn := flipTurn s.turn
        history := s.history ++ [moveRecord]
        moveList := s.moveList ++ [toAlgebraic from_ to_ pc.type captured promotion] }

/-- The function `undo()`. -/
def undo (s : State) : State :=
  match s.history.getLast? with
  | none => s
  | some last =>
    let board1 := setCell s.board last.from_.r last.from_.c (some last.piece)
    let board2 := setCell board1 last.to_.r last.to_.c last.captured
    { board := board2
      turn := last.prevTurn
      history := s.history.dropLast
      moveList := s.moveList.dropLast }

/-- The table `startFEN` of `newGame`. -/
def startFEN : List (List (Option Kind)) :=
  [ [some .r, some .n, some .b, some .q, some .k, some .b, some .n, some .r],
    [some .p, some .p, some .p, some .p, some .p, some .p, some .p, some .p],
    [none, none, none, none, none, none, none, none],
    [none, none, none, none, none, none, none, none],
    [none, none, none, none, none, none, none, none],
    [none, none, none, none, none, none, none, none],
    [some .p, some .p, some .p, some .p, some .p, some .p, some .p, some .p],
    [some .r, some .n, some .b, some .q, some .k, some .b, some .n, some .r] ]

/-- The board built by the two nested loops of `newGame`. -/
def startBoard : Board :=
  fun r c =>
    match (startFEN.getD r.val []).getD c.val none with
    | some x => some { type := x, color := if r.val < 2 then Color.b else Color.w }
    | none => none

/-- The function `newGame()`, from any state. -/
def newGame (_s : State) : State :=
  { board := startBoard, turn := Color.w, history := [], moveList := [] }

/-- A sequence of `makeMove` calls, stopping at the first one that throws. -/
def playMoves : State → List (Square × Square) → Completion
  | s, [] => .normal s
  | s, m :: rest =>
    match makeMove s m.1 m.2 with
    | .normal s1 => playMoves s1 rest
    | .thrown s1 => .thrown s1

/-- The state with an empty board, white to move and nothing played. -/
def emptyState : State :=
  { board := fun _ _ => none, turn := Color.w, history := [], moveList := [] }

/-- A destination record `d` is a landing of a piece of colour `col`: its square is on the
board, its promotion flag is off, and either the square is empty and the capture flag is off,
or the square holds a piece of the other colour and the capture flag is on. -/
def Lands (board : Board) (col : Color) (d : Dest) : Prop :=
  inside d.r d.c = true ∧ d.promotion = false ∧
    ((readCell board d.r d.c = .ok none ∧ d.capture = false) ∨
      (∃ q, readCell board d.r d.c = .ok (some q) ∧ q.color ≠ col ∧ d.capture = true))

/-- A board that is empty except for the listed pieces. -/
def boardOf (pieces : List (Fin 8 × Fin 8 × Piece)) : Board :=
  fun i j => (pieces.find? (fun x => decide (x.1 = i ∧ x.2.1 = j))).map (fun x => x.2.2)

/-- White rook on (4,4), white pawn on (4,1), black pawn on (1,4), black knight on (0,4). -/
def rookBoard : Board :=
  boardOf [(4, 4, ⟨Kind.r, Color.w⟩), (4, 1, ⟨Kind.p, Color.w⟩), (1, 4, ⟨Kind.p, Color.b⟩),
    (0, 4, ⟨Kind.n, Color.b⟩)]

/-- White pawn on (6,4) and black pawn on (5,3), nothing else. -/
def pawnCaptureBoard : Board :=
  boardOf [(6, 4, ⟨Kind.p, Color.w⟩), (5, 3, ⟨Kind.p, Color.b⟩)]

/-- White pawn on (1,3) and black rook on (0,4), nothing else. -/
def promoBoard : Board :=
  boardOf [(1, 3, ⟨Kind.p, Color.w⟩), (0, 4, ⟨Kind.r, Color.b⟩)]

/-- The board `promoBoard` with white to move and nothing played. -/
def promoState : State :=
  { board := promoBoard, turn := Color.w, history := [], moveList := [] }

/-- The function `undo()` called `n` times in a row. -/
def undoTimes : Nat → State → State
  | 0, s => s
  | n + 1, s => undoTimes n (undo s)

/-- The number of squares of a board that hold a piece of colour `col`. -/
def countColor (board : Board) (col : Color) : Nat :=
  ((List.finRange 8).map fun r =>
    ((List.finRange 8).filter fun c =>
      decide ((board r c).map Piece.color = some col)).length).sum

/-- A direction `(dr, dc)` of unit steps, not both zero. -/
def UnitDir (dr dc : Int) : Prop :=
  (dr = -1 ∨ dr = 0 ∨ dr = 1) ∧ (dc = -1 ∨ dc = 0 ∨ dc = 1) ∧ ¬ (dr = 0 ∧ dc = 0)

/-- A destination record `d` is reached from `(r, c)` along direction `(dr, dc)` after `k`
steps with `k0 ≤ k`: the squares at steps `1 .. k-1` are empty and `d` is a landing. -/
def RayHit (board : Board) (col : Color) (r c dr dc k0 : Int) (d : Dest) : Prop :=
  ∃ k : Int, k0 ≤ k ∧ d.r = r + k * dr ∧ d.c = c + k * dc ∧
    (∀ j : Int, 1 ≤ j → j < k → readCell board (r + j * dr) (c + j * dc) = .ok none) ∧
    Lands board col d

/-! ## Reads and the board bounds -/

theorem inside_iff (rr cc : Int) :
    inside rr cc = true ↔ 0 ≤ rr ∧ rr < 8 ∧ 0 ≤ cc ∧ cc < 8 := by
  simp only [inside, Bool.and_eq_true, decide_eq_true_eq, ge_iff_le]
  tauto

theorem readCell_error_outside {board : Board} {rr cc : Int} {e : Fault}
    (h : readCell board rr cc = .error e) : ¬ inside rr cc = true := by
  intro hin
  rw [inside_iff] at hin
  unfold readCell at h
  rw [dif_pos ⟨hin.1, hin.2.1⟩, dif_pos ⟨hin.2.2.1, hin.2.2.2⟩] at h
  cases h

theorem readCell_square (board : Board) (sq : Square) :
    readCell board (sq.r.val : Int) (sq.c.val : Int) = .ok (board sq.r sq.c) := by
  have h1 := sq.r.isLt
  have h2 := sq.c.isLt
  unfold readCell
  rw [dif_pos (by omega), dif_pos (by omega)]
  simp

theorem inside_square (sq : Square) : inside (sq.r.val : Int) (sq.c.val : Int) = true := by
  have h1 := sq.r.isLt
  have h2 := sq.c.isLt
  rw [inside_iff]
  omega

theorem lands_empty {board : Board} {col : Color} {rr cc : Int} (d : Dest)
    (hin : inside rr cc = true) (hcell : readCell board rr cc = .ok none) :
    (d.r = rr ∧ d.c = cc ∧ Lands board col d) ↔
      d = { r := rr, c := cc, capture := false, promotion := false } := by
  constructor
  · rintro ⟨h1, h2, -, h4, h5⟩
    subst h1 h2
    rcases h5 with ⟨-, h6⟩ | ⟨q, h6, -, -⟩
    · exact Dest.ext rfl rfl h6 h4
    · rw [hcell] at h6
      cases h6
  · rintro rfl
    exact ⟨rfl, rfl, hin, rfl, Or.inl ⟨hcell, rfl⟩⟩

theorem lands_enemy {board : Board} {col : Color} {rr cc : Int} {q : Piece} (d : Dest)
    (hin : inside rr cc = true) (hcell : readCell board rr cc = .ok (some q))
    (hq : q.color ≠ col) :
    (d.r = rr ∧ d.c = cc ∧ Lands board col d) ↔
      d = { r := rr, c := cc, capture := true, promotion := false } := by
  constructor
  · rintro ⟨h1, h2, -, h4, h5⟩
    subst h1 h2
    rcases h5 with ⟨h6, -⟩ | ⟨q1, -, -, h6⟩
    · rw [hcell] at h6
      cases h6
    · exact Dest.ext rfl rfl h6 h4
  · rintro rfl
    exact ⟨rfl, rfl, hin, rfl, Or.inr ⟨q, hcell, hq, rfl⟩⟩

theorem lands_own {board : Board} {col : Color} {rr cc : Int} {q : Piece} (d : Dest)
    (hcell : readCell board rr cc = .ok (some q)) (hq : ¬ q.color ≠ col) :
    ¬ (d.r = rr ∧ d.c = cc ∧ Lands board col d) := by
  rintro ⟨h1, h2, -, -, h5⟩
  subst h1 h2
  rcases h5 with ⟨h6, -⟩ | ⟨q1, h6, h7, -⟩
  · rw [hcell] at h6
    cases h6
  · rw [hcell] at h6
    cases h6
    exact hq h7

theorem lands_outside {board : Board} {col : Color} {rr cc : Int} (d : Dest)
    (hin : ¬ inside rr cc = true) : ¬ (d.r = rr ∧ d.c = cc ∧ Lands board col d) := by
  rintro ⟨h1, h2, h3, -⟩
  subst h1 h2
  exact hin h3

theorem push_inside {moves : List Dest} {rr cc : Int} (cap promo : Bool)
    (hin : inside rr cc = true) :
    push moves rr cc cap promo =
      moves ++ [{ r := rr, c := cc, capture := cap, promotion := promo }] := by
  simp [push, hin]

/-! ## Knight and king: one step per offset -/

theorem stepMoves_spec (board : Board) (col : Color) (r c : Int) :
    ∀ (offs : List (Int × Int)) (acc : List Dest),
      ∃ ms, stepMoves board col r c offs acc = .ok (acc ++ ms) ∧
        ∀ d, d ∈ ms ↔ ∃ o ∈ offs, d.r = r + o.1 ∧ d.c = c + o.2 ∧ Lands board col d
  | [], acc => ⟨[], by simp [stepMoves], by simp⟩
  | o :: rest, acc => by
    unfold stepMoves
    by_cases hin : inside (r + o.1) (c + o.2) = true
    · simp only [hin, if_true]
      cases hcell : readCell board (r + o.1) (c + o.2) with
      | error e => exact absurd hin (readCell_error_outside hcell)
      | ok v =>
        cases v with
        | none =>
          obtain ⟨ms, h1, h2⟩ := stepMoves_spec board col r c rest
            (push acc (r + o.1) (c + o.2) false false)
          refine ⟨⟨r + o.1, c + o.2, false, false⟩ :: ms, ?_, ?_⟩
          · rw [h1, push_inside _ _ hin, List.append_assoc, List.singleton_append]
          · intro d
            simp only [List.mem_cons, h2, exists_eq_or_imp, lands_empty d hin hcell]
        | some q =>
          by_cases hq : q.color ≠ col
          · obtain ⟨ms, h1, h2⟩ := stepMoves_spec board col r c rest
              (push acc (r + o.1) (c + o.2) true false)
            refine ⟨⟨r + o.1, c + o.2, true, false⟩ :: ms, ?_, ?_⟩
            · dsimp only
              rw [if_pos hq, h1, push_inside _ _ hin, List.append_assoc, List.singleton_append]
            · intro d
              simp only [List.mem_cons, h2, exists_eq_or_imp, lands_enemy d hin hcell hq]
          · obtain ⟨ms, h1, h2⟩ := stepMoves_spec board col r c rest acc
            refine ⟨ms, ?_, ?_⟩
            · dsimp only
              rw [if_neg hq, h1]
            · intro d
              simp only [List.mem_cons, h2, exists_eq_or_imp, lands_own d hcell hq, false_or]
    · obtain ⟨ms, h1, h2⟩ := stepMoves_spec board col r c rest acc
      refine ⟨ms, ?_, ?_⟩
      · simp only [hin, h1]
        simp
      · intro d
        simp only [List.mem_cons, h2, exists_eq_or_imp, lands_outside d hin, false_or]

/-! ## Bishop, rook and queen: ray casting -/

theorem ray_step_bound {r c dr dc k : Int} (hdir : UnitDir dr dc) (hrc : inside r c = true)
    (hin : inside (r + k * dr) (c + k * dc) = true) : k ≤ 7 := by
  obtain ⟨h1, h2, h3⟩ := hdir
  rw [inside_iff] at hrc hin
  rcases h1 with h1 | h1 | h1 <;> rcases h2 with h2 | h2 | h2 <;> subst h1 h2 <;> omega

theorem ray_between_inside {r c dr dc j k : Int} (hdir : UnitDir dr dc)
    (hrc : inside r c = true) (hj : 0 ≤ j) (hjk : j ≤ k)
    (hin : inside (r + k * dr) (c + k * dc) = true) :
    inside (r + j * dr) (c + j * dc) = true := by
  obtain ⟨h1, h2, -⟩ := hdir
  rw [inside_iff] at hrc hin ⊢
  rcases h1 with h1 | h1 | h1 <;> rcases h2 with h2 | h2 | h2 <;> subst h1 h2 <;> omega

theorem rayLoop_spec (board : Board) (col : Color) (r c dr dc : Int) (hdir : UnitDir dr dc)
    (hrc : inside r c = true) :
    ∀ (fuel : Nat) (k : Int) (acc : List Dest), 1 ≤ k → k ≤ 8 → 9 ≤ (fuel : Int) + k →
      (∀ j : Int, 1 ≤ j → j < k → readCell board (r + j * dr) (c + j * dc) = .ok none) →
      ∃ ms, rayLoop board col dr dc fuel (r + k * dr) (c + k * dc) acc = .ok (acc ++ ms) ∧
        ∀ d, d ∈ ms ↔ RayHit board col r c dr dc k d
  | 0, k, acc, _, hk8, hfuel, _ => by
    exfalso
    simp only [Nat.cast_zero] at hfuel
    omega
  | fuel + 1, k, acc, hk1, hk8, hfuel, hempty => by
    unfold rayLoop
    by_cases hin : inside (r + k * dr) (c + k * dc) = true
    · have hk7 := ray_step_bound hdir hrc hin
      rw [if_pos hin]
      -- no landing lies beyond an occupied square at step `k`
      have blocked : ∀ (q : Piece) (d : Dest),
          readCell board (r + k * dr) (c + k * dc) = .ok (some q) →
          RayHit board col r c dr dc (k + 1) d → False := by
        rintro q d hq ⟨k1, hk1a, -, -, hbetween, -⟩
        have := hbetween k hk1 (by omega)
        rw [hq] at this
        cases this
      have split : ∀ d, RayHit board col r c dr dc k d ↔
          ((d.r = r + k * dr ∧ d.c = c + k * dc ∧ Lands board col d) ∨
            RayHit board col r c dr dc (k + 1) d) := by
        intro d
        constructor
        · rintro ⟨k1, hk1a, hr, hc, hbetween, hl⟩
          rcases eq_or_lt_of_le hk1a with heq | hlt
          · subst heq
            exact Or.inl ⟨hr, hc, hl⟩
          · exact Or.inr ⟨k1, by omega, hr, hc, hbetween, hl⟩
        · rintro (⟨hr, hc, hl⟩ | ⟨k1, hk1a, hr, hc, hbetween, hl⟩)
          · exact ⟨k, le_refl k, hr, hc, hempty, hl⟩
          · exact ⟨k1, by omega, hr, hc, hbetween, hl⟩
      cases hcell : readCell board (r + k * dr) (c + k * dc) with
      | error e => exact absurd hin (readCell_error_outside hcell)
      | ok v =>
        cases v with
        | none =>
          have hnext : ∀ j : Int, 1 ≤ j → j < k + 1 →
              readCell board (r + j * dr) (c + j * dc) = .ok none := by
            intro j hj1 hj2
            rcases eq_or_lt_of_le (Int.lt_add_one_iff.mp hj2) with heq | hlt
            · subst heq
              exact hcell
            · exact hempty j hj1 hlt
          obtain ⟨ms, h1, h2⟩ := rayLoop_spec board col r c dr dc hdir hrc fuel (k + 1)
            (push acc (r + k * dr) (c + k * dc) false false) (by omega) (by omega)
            (by push_cast at hfuel ⊢; omega) hnext
          have e1 : r + (k + 1) * dr = r + k * dr + dr := by ring
          have e2 : c + (k + 1) * dc = c + k * dc + dc := by ring
          rw [e1, e2] at h1
          refine ⟨⟨r + k * dr, c + k * dc, false, false⟩ :: ms, ?_, ?_⟩
          · dsimp only
            rw [h1, push_inside _ _ hin, List.append_assoc, List.singleton_append]
          · intro d
            rw [split d, List.mem_cons, h2 d, lands_empty d hin hcell]
        | some q =>
          by_cases hq : q.color ≠ col
          · refine ⟨[⟨r + k * dr, c + k * dc, true, false⟩], ?_, ?_⟩
            · dsimp only
              rw [if_pos hq, push_inside _ _ hin]
            · intro d
              rw [split d, List.mem_singleton, lands_enemy d hin hcell hq]
              constructor
              · exact Or.inl
              · rintro (h | h)
                · exact h
                · exact absurd h (blocked q d hcell)
          · refine ⟨[], ?_, ?_⟩
            · dsimp only
              rw [if_neg hq, List.append_nil]
            · intro d
              rw [split d]
              constructor
              · intro h
                cases h
              · rintro (h | h)
                · exact absurd h (lands_own d hcell hq)
                · exact absurd h (blocked q d hcell)
    · refine ⟨[], ?_, ?_⟩
      · rw [if_neg hin, List.append_nil]
      · intro d
        constructor
        · intro h
          cases h
        · rintro ⟨k1, hk1a, hr, hc, -, hl⟩
          exfalso
          have h3 := hl.1
          rw [hr, hc] at h3
          exact hin (ray_between_inside hdir hrc (by omega) hk1a h3)

theorem castRays_spec (fuel : Nat) (hfuel : 8 ≤ fuel) (board : Board) (col : Color)
    (r c : Int) (hrc : inside r c = true) :
    ∀ (dirs : List (Int × Int)) (acc : List Dest), (∀ dd ∈ dirs, UnitDir dd.1 dd.2) →
      ∃ ms, castRays fuel board col r c dirs acc = .ok (acc ++ ms) ∧
        ∀ d, d ∈ ms ↔ ∃ dd ∈ dirs, RayHit board col r c dd.1 dd.2 1 d
  | [], acc, _ => ⟨[], by simp [castRays], by simp⟩
  | dd :: rest, acc, hdirs => by
    obtain ⟨ms1, h1, h2⟩ := rayLoop_spec board col r c dd.1 dd.2
      (hdirs dd (List.mem_cons_self _ _)) hrc fuel 1 acc (le_refl 1) (by omega)
      (by omega) (by intro j hj1 hj2; omega)
    rw [one_mul, one_mul] at h1
    obtain ⟨ms2, h3, h4⟩ := castRays_spec fuel hfuel board col r c hrc rest (acc ++ ms1)
      (fun x hx => hdirs x (List.mem_cons_of_mem _ hx))
    refine ⟨ms1 ++ ms2, ?_, ?_⟩
    · unfold castRays
      rw [h1]
      dsimp only
      rw [h3, List.append_assoc]
    · intro d
      rw [List.mem_append, h2 d, h4 d]
      simp only [List.mem_cons, exists_eq_or_imp]

/-! ## Pawn -/

theorem pawnCaptures_spec (board : Board) (col : Color) (r c : Int) :
    ∀ (dcs : List Int) (acc : List Dest),
      ∃ ms, pawnCaptures board col r c dcs acc = .ok (acc ++ ms) ∧
        ∀ d, d ∈ ms ↔ ∃ dc ∈ dcs,
          d = ⟨r + dirOf col, c + dc, true, promoFlag col (r + dirOf col)⟩ ∧
          inside (r + dirOf col) (c + dc) = true ∧
          ∃ q, readCell board (r + dirOf col) (c + dc) = .ok (some q) ∧ q.color ≠ col
  | [], acc => ⟨[], by simp [pawnCaptures], by simp⟩
  | dc :: rest, acc => by
    unfold pawnCaptures
    by_cases hin : inside (r + dirOf col) (c + dc) = true
    · simp only [hin, if_true]
      cases hcell : readCell board (r + dirOf col) (c + dc) with
      | error e => exact absurd hin (readCell_error_outside hcell)
      | ok v =>
        cases v with
        | none =>
          obtain ⟨ms, h1, h2⟩ := pawnCaptures_spec board col r c rest acc
          refine ⟨ms, ?_, ?_⟩
          · dsimp only
            rw [h1]
          · intro d
            simp [h2, hcell]
        | some q =>
          by_cases hq : q.color ≠ col
          · obtain ⟨ms, h1, h2⟩ := pawnCaptures_spec board col r c rest
              (push acc (r + dirOf col) (c + dc) true (promoFlag col (r + dirOf col)))
            refine ⟨⟨r + dirOf col, c + dc, true, promoFlag col (r + dirOf col)⟩ :: ms, ?_, ?_⟩
            · dsimp only
              rw [if_pos hq, h1, push_inside _ _ hin, List.append_assoc, List.singleton_append]
            · intro d
              simp [h2, hcell, hq, hin]
          · obtain ⟨ms, h1, h2⟩ := pawnCaptures_spec board col r c rest acc
            refine ⟨ms, ?_, ?_⟩
            · dsimp only
              rw [if_neg hq, h1]
            · intro d
              simp only [ne_eq, not_not] at hq
              simp [h2, hcell, hq]
    · obtain ⟨ms, h1, h2⟩ := pawnCaptures_spec board col r c rest acc
      refine ⟨ms, ?_, ?_⟩
      · simp only [hin, h1]
        simp
      · intro d
        simp [h2, hin]

theorem pawnForward_spec (board : Board) (col : Color) (r c : Int) (hrc : inside r c = true)
    (acc : List Dest) :
    ∃ ms, pawnForward board col r c acc = .ok (acc ++ ms) ∧
      ∀ d, d ∈ ms ↔
        ((d = ⟨r + dirOf col, c, false, promoFlag col (r + dirOf col)⟩ ∧
            inside (r + dirOf col) c = true ∧
            readCell board (r + dirOf col) c = .ok none) ∨
          (d = ⟨r + dirOf col * 2, c, false, false⟩ ∧
            r = (if col = Color.w then 6 else 1) ∧
            readCell board (r + dirOf col) c = .ok none ∧
            readCell board (r + dirOf col * 2) c = .ok none)) := by
  unfold pawnForward
  by_cases hin : inside (r + dirOf col) c = true
  · simp only [hin, if_true]
    cases hcell : readCell board (r + dirOf col) c with
    | error e => exact absurd hin (readCell_error_outside hcell)
    | ok v =>
      cases v with
      | some q => exact ⟨[], by simp, by simp⟩
      | none =>
        by_cases hstart : r = (if col = Color.w then 6 else 1)
        · have hin2 : inside (r + dirOf col * 2) c = true := by
            rw [inside_iff] at hrc ⊢
            cases col <;> simp [dirOf] at hstart ⊢ <;> omega
          cases hcell2 : readCell board (r + dirOf col * 2) c with
          | error e => exact absurd hin2 (readCell_error_outside hcell2)
          | ok v2 =>
            cases v2 with
            | some q2 =>
              refine ⟨[⟨r + dirOf col, c, false, promoFlag col (r + dirOf col)⟩], ?_, ?_⟩
              · dsimp only
                rw [if_pos hstart, push_inside _ _ hin]
              · intro d
                simp [hcell2]
            | none =>
              refine ⟨[⟨r + dirOf col, c, false, promoFlag col (r + dirOf col)⟩,
                ⟨r + dirOf col * 2, c, false, false⟩], ?_, ?_⟩
              · dsimp only
                rw [if_pos hstart, push_inside _ _ hin, push_inside _ _ hin2]
                simp
              · intro d
                simp [hcell2, hstart]
        · refine ⟨[⟨r + dirOf col, c, false, promoFlag col (r + dirOf col)⟩], ?_, ?_⟩
          · dsimp only
            rw [if_neg hstart, push_inside _ _ hin]
          · intro d
            simp [hstart]
  · refine ⟨[], ?_, ?_⟩
    · simp [hin]
    · intro d
      have hno : ¬ r = (if col = Color.w then 6 else 1) := by
        intro h
        apply hin
        rw [inside_iff] at hrc ⊢
        cases col <;> simp [dirOf] at h ⊢ <;> omega
      simp [hin, hno]

theorem pawn_spec (board : Board) (col : Color) (r c : Int) (hrc : inside r c = true) :
    ∃ ms,
      pawnMoves board col r c = .ok ms ∧
      ∀ d, d ∈ ms ↔
        (((d = ⟨r + dirOf col, c, false, promoFlag col (r + dirOf col)⟩ ∧
              inside (r + dirOf col) c = true ∧
              readCell board (r + dirOf col) c = .ok none) ∨
            (d = ⟨r + dirOf col * 2, c, false, false⟩ ∧
              r = (if col = Color.w then 6 else 1) ∧
              readCell board (r + dirOf col) c = .ok none ∧
              readCell board (r + dirOf col * 2) c = .ok none)) ∨
          ∃ dc ∈ ([-1, 1] : List Int),
            d = ⟨r + dirOf col, c + dc, true, promoFlag col (r + dirOf col)⟩ ∧
            inside (r + dirOf col) (c + dc) = true ∧
            ∃ q, readCell board (r + dirOf col) (c + dc) = .ok (some q) ∧ q.color ≠ col) := by
  obtain ⟨ms1, h1, h2⟩ := pawnForward_spec board col r c hrc []
  rw [List.nil_append] at h1
  obtain ⟨ms2, h3, h4⟩ := pawnCaptures_spec board col r c [-1, 1] ms1
  refine ⟨ms1 ++ ms2, ?_, fun d => ?_⟩
  · unfold pawnMoves
    rw [h1]
    exact h3
  · rw [List.mem_append, h2 d, h4 d]

theorem promoFlag_iff {col : Color} {r c : Int} (hrc : inside r c = true) :
    promoFlag col (r + dirOf col) = true ↔ (r + dirOf col = 0 ∨ r + dirOf col = 7) := by
  rw [inside_iff] at hrc
  cases col <;> simp [promoFlag, dirOf] <;> omega

/-! ## From destination records to squares -/

theorem lands_capture_iff {board : Board} {col : Color} {d : Dest} (h : Lands board col d) :
    d.capture = true ↔ ∃ q, readCell board d.r d.c = .ok (some q) := by
  obtain ⟨-, -, ⟨h1, h2⟩ | ⟨q, h1, -, h2⟩⟩ := h
  · rw [h1, h2]
    simp
  · rw [h1, h2]
    simp

theorem lands_square {board : Board} {col : Color} {d : Dest} (h : Lands board col d) :
    inside d.r d.c = true ∧
      (readCell board d.r d.c = .ok none ∨
        ∃ q, readCell board d.r d.c = .ok (some q) ∧ q.color ≠ col) := by
  obtain ⟨h0, -, ⟨h1, -⟩ | ⟨q, h1, h2, -⟩⟩ := h
  · exact ⟨h0, Or.inl h1⟩
  · exact ⟨h0, Or.inr ⟨q, h1, h2⟩⟩

theorem squares_of_lands {board : Board} {col : Color} {ms : List Dest}
    {G : Int → Int → Prop} (h : ∀ d, d ∈ ms ↔ G d.r d.c ∧ Lands board col d) (tr tc : Int) :
    (∃ d ∈ ms, d.r = tr ∧ d.c = tc) ↔
      G tr tc ∧ inside tr tc = true ∧
        (readCell board tr tc = .ok none ∨
          ∃ q, readCell board tr tc = .ok (some q) ∧ q.color ≠ col) := by
  constructor
  · rintro ⟨d, hd, rfl, rfl⟩
    obtain ⟨hg, hl⟩ := (h d).mp hd
    exact ⟨hg, lands_square hl⟩
  · rintro ⟨hg, hin, hcell | ⟨q, hcell, hq⟩⟩
    · exact ⟨⟨tr, tc, false, false⟩, (h _).mpr ⟨hg, hin, rfl, Or.inl ⟨hcell, rfl⟩⟩, rfl, rfl⟩
    · exact ⟨⟨tr, tc, true, false⟩, (h _).mpr ⟨hg, hin, rfl, Or.inr ⟨q, hcell, hq, rfl⟩⟩,
        rfl, rfl⟩

theorem mem_knightOffsets (dr dc : Int) :
    (dr, dc) ∈ knightOffsets ↔
      ((dr = 1 ∨ dr = -1) ∧ (dc = 2 ∨ dc = -2)) ∨ ((dr = 2 ∨ dr = -2) ∧ (dc = 1 ∨ dc = -1)) := by
  simp only [knightOffsets, List.mem_cons, Prod.mk.injEq, List.mem_singleton,
    List.not_mem_nil, or_false]
  omega

theorem mem_bishopDirs (dr dc : Int) :
    (dr, dc) ∈ bishopDirs ↔ (dr = 1 ∨ dr = -1) ∧ (dc = 1 ∨ dc = -1) := by
  simp only [bishopDirs, List.mem_cons, Prod.mk.injEq, List.mem_singleton,
    List.not_mem_nil, or_false]
  omega

theorem mem_rookDirs (dr dc : Int) :
    (dr, dc) ∈ rookDirs ↔
      ((dr = 1 ∨ dr = -1) ∧ dc = 0) ∨ (dr = 0 ∧ (dc = 1 ∨ dc = -1)) := by
  simp only [rookDirs, List.mem_cons, Prod.mk.injEq, List.mem_singleton,
    List.not_mem_nil, or_false]
  omega

theorem mem_queenDirs (dr dc : Int) :
    (dr, dc) ∈ queenDirs ↔
      (dr = -1 ∨ dr = 0 ∨ dr = 1) ∧ (dc = -1 ∨ dc = 0 ∨ dc = 1) ∧ ¬ (dr = 0 ∧ dc = 0) := by
  simp only [queenDirs, List.mem_cons, Prod.mk.injEq, List.mem_singleton,
    List.not_mem_nil, or_false]
  omega

theorem stepMoves_squares (board : Board) (col : Color) (r c : Int)
    (offs : List (Int × Int)) :
    ∃ ms, stepMoves board col r c offs [] = .ok ms ∧
      (∀ d ∈ ms, Lands board col d) ∧
      ∀ tr tc : Int, (∃ d ∈ ms, d.r = tr ∧ d.c = tc) ↔
        (∃ dr dc : Int, (dr, dc) ∈ offs ∧ tr = r + dr ∧ tc = c + dc) ∧ inside tr tc = true ∧
          (readCell board tr tc = .ok none ∨
            ∃ q, readCell board tr tc = .ok (some q) ∧ q.color ≠ col) := by
  obtain ⟨ms, h1, h2⟩ := stepMoves_spec board col r c offs []
  rw [List.nil_append] at h1
  refine ⟨ms, h1, fun d hd => ?_, squares_of_lands (fun d => ?_)⟩
  · obtain ⟨o, -, -, -, hl⟩ := (h2 d).mp hd
    exact hl
  · rw [h2 d]
    constructor
    · rintro ⟨o, ho, hr, hc, hl⟩
      exact ⟨⟨o.1, o.2, ho, hr, hc⟩, hl⟩
    · rintro ⟨⟨dr, dc, ho, hr, hc⟩, hl⟩
      exact ⟨(dr, dc), ho, hr, hc, hl⟩

theorem castRays_squares (fuel : Nat) (hfuel : 8 ≤ fuel) (board : Board) (col : Color)
    (r c : Int) (hrc : inside r c = true) (dirs : List (Int × Int))
    (hdirs : ∀ dd ∈ dirs, UnitDir dd.1 dd.2) :
    ∃ ms, castRays fuel board col r c dirs [] = .ok ms ∧
      (∀ d ∈ ms, Lands board col d) ∧
      ∀ tr tc : Int, (∃ d ∈ ms, d.r = tr ∧ d.c = tc) ↔
        (∃ dr dc k : Int, (dr, dc) ∈ dirs ∧ 1 ≤ k ∧ tr = r + k * dr ∧ tc = c + k * dc ∧
          ∀ j : Int, 1 ≤ j → j < k →
            inside (r + j * dr) (c + j * dc) = true ∧
              readCell board (r + j * dr) (c + j * dc) = .ok none) ∧
        inside tr tc = true ∧
          (readCell board tr tc = .ok none ∨
            ∃ q, readCell board tr tc = .ok (some q) ∧ q.color ≠ col) := by
  obtain ⟨ms, h1, h2⟩ := castRays_spec fuel hfuel board col r c hrc dirs [] hdirs
  rw [List.nil_append] at h1
  refine ⟨ms, h1, fun d hd => ?_, squares_of_lands (fun d => ?_)⟩
  · obtain ⟨dd, -, k, -, -, -, -, hl⟩ := (h2 d).mp hd
    exact hl
  · rw [h2 d]
    constructor
    · rintro ⟨dd, hdd, k, hk, hr, hc, hbetween, hl⟩
      refine ⟨⟨dd.1, dd.2, k, hdd, hk, hr, hc, fun j hj1 hj2 => ⟨?_, hbetween j hj1 hj2⟩⟩, hl⟩
      have h3 := hl.1
      rw [hr, hc] at h3
      exact ray_between_inside (hdirs dd hdd) hrc (by omega) (le_of_lt hj2) h3
    · rintro ⟨⟨dr, dc, k, hdd, hk, hr, hc, hbetween⟩, hl⟩
      exact ⟨(dr, dc), hdd, k, hk, hr, hc, fun j hj1 hj2 => (hbetween j hj1 hj2).2, hl⟩

theorem unitDir_of_queenDirs : ∀ dd ∈ queenDirs, UnitDir dd.1 dd.2 := by
  rintro ⟨dr, dc⟩ h
  exact (mem_queenDirs dr dc).mp h

theorem unitDir_of_bishopDirs : ∀ dd ∈ bishopDirs, UnitDir dd.1 dd.2 := by
  rintro ⟨dr, dc⟩ h
  have := (mem_bishopDirs dr dc).mp h
  unfold UnitDir
  dsimp only
  omega

theorem unitDir_of_rookDirs : ∀ dd ∈ rookDirs, UnitDir dd.1 dd.2 := by
  rintro ⟨dr, dc⟩ h
  have := (mem_rookDirs dr dc).mp h
  unfold UnitDir
  dsimp only
  omega

theorem inside_of_readCell_some {board : Board} {rr cc : Int} {q : Piece}
    (h : readCell board rr cc = .ok (some q)) : inside rr cc = true := by
  unfold readCell at h
  split at h
  · split at h
    · rw [inside_iff]
      omega
    · cases h
  · cases h

theorem calc_pawn (fuel : Nat) (board : Board) (r c : Int) (p : Piece)
    (hp : readCell board r c = .ok (some p)) (hk : p.type = Kind.p) :
    calcLegalMoves fuel board r c = pawnMoves board p.color r c := by
  unfold calcLegalMoves
  rw [hp]
  dsimp only
  rw [hk]

/-! ## Applying and undoing a move -/

theorem makeMove_piece (s : State) (from_ to_ : Square) (pc : Piece)
    (h : s.board from_.r from_.c = some pc) :
    makeMove s from_ to_ = .normal
      { board :=
          if (decide (pc.type = Kind.p) && (decide (to_.r.val = 0) || decide (to_.r.val = 7)))
              = true then
            setCell (setCell (setCell s.board to_.r to_.c (some pc)) from_.r from_.c none)
              to_.r to_.c (some { type := Kind.q, color := pc.color })
          else setCell (setCell s.board to_.r to_.c (some pc)) from_.r from_.c none
        turn := flipTurn s.turn
        history := s.history ++
          [{ from_ := from_, to_ := to_, piece := pc, captured := s.board to_.r to_.c,
              prevTurn := s.turn,
              promotion :=
                if (decide (pc.type = Kind.p) &&
                    (decide (to_.r.val = 0) || decide (to_.r.val = 7))) = true then some "q"
                else none }]
        moveList := s.moveList ++
          [toAlgebraic from_ to_ pc.type (s.board to_.r to_.c)
            (if (decide (pc.type = Kind.p) &&
                (decide (to_.r.val = 0) || decide (to_.r.val = 7))) = true then some "q"
              else none)] } := by
  unfold makeMove
  simp only [h]

theorem undo_makeMove (s : State) (from_ to_ : Square) (pc : Piece)
    (h : s.board from_.r from_.c = some pc) :
    ∃ s1, makeMove s from_ to_ = .normal s1 ∧ undo s1 = s := by
  refine ⟨_, makeMove_piece s from_ to_ pc h, ?_⟩
  obtain ⟨board, turn, history, moveList⟩ := s
  dsimp only at h ⊢
  unfold undo
  simp only [List.getLast?_concat, List.dropLast_concat]
  congr 1
  funext i j
  by_cases h1 : i = to_.r ∧ j = to_.c
  · simp only [setCell, h1, and_self, if_true]
  · by_cases h2 : i = from_.r ∧ j = from_.c
    · obtain ⟨rfl, rfl⟩ := h2
      simp only [setCell, h1, and_self, if_true, if_false]
      rw [h]
    · by_cases h3 : (decide (pc.type = Kind.p) &&
          (decide (to_.r.val = 0) || decide (to_.r.val = 7))) = true
      · simp only [setCell, h1, h2, h3, if_true, if_false]
      · simp only [setCell, h1, h2, h3, if_false, Bool.false_eq_true]

theorem pawn_dest_promo (board : Board) (col : Color) (r c : Int) (hrc : inside r c = true)
    (ms : List Dest) (hms : pawnMoves board col r c = .ok ms) :
    ∀ d ∈ ms, (d.promotion = true ↔ (d.r = 0 ∨ d.r = 7)) ∧ d.r ≠ r := by
  obtain ⟨ms1, h1, h2⟩ := pawn_spec board col r c hrc
  rw [hms] at h1
  cases h1
  have hne : dirOf col ≠ 0 := by cases col <;> simp [dirOf]
  intro d hd
  rcases (h2 d).mp hd with (⟨rfl, -⟩ | ⟨rfl, h3, -⟩) | ⟨dc, -, rfl, -⟩
  · exact ⟨promoFlag_iff hrc, by dsimp only; omega⟩
  · dsimp only
    revert h3
    cases col <;> simp [dirOf] <;> omega
  · exact ⟨promoFlag_iff hrc, by dsimp only; omega⟩

theorem makeMove_turn {s s1 : State} {from_ to_ : Square}
    (h : makeMove s from_ to_ = .normal s1) : s1.turn = flipTurn s.turn := by
  cases hpc : s.board from_.r from_.c with
  | none =>
    unfold makeMove at h
    simp only [hpc] at h
    cases h
  | some pc =>
    rw [makeMove_piece s from_ to_ pc hpc] at h
    cases h
    rfl

theorem playMoves_turn : ∀ (moves : List (Square × Square)) (s s1 : State),
    playMoves s moves = .normal s1 →
      s1.turn = if moves.length % 2 = 0 then s.turn else flipTurn s.turn
  | [], s, s1, h => by
    unfold playMoves at h
    cases h
    rfl
  | m :: rest, s, s1, h => by
    unfold playMoves at h
    cases hm : makeMove s m.1 m.2 with
    | thrown s2 =>
      rw [hm] at h
      cases h
    | normal s2 =>
      rw [hm] at h
      dsimp only at h
      rw [playMoves_turn rest s2 s1 h, makeMove_turn hm, List.length_cons]
      have hflip : flipTurn (flipTurn s.turn) = s.turn := by
        cases s.turn <;> rfl
      rcases Nat.mod_two_eq_zero_or_one rest.length with h0 | h1
      · have h2 : (rest.length + 1) % 2 = 1 := by omega
        simp [h0, h2]
      · have h2 : (rest.length + 1) % 2 = 0 := by omega
        simp [h1, h2, hflip]

theorem file_rank (r c : Fin 8) :
    file c.val ++ toString (8 - r.val) =
      String.mk [Char.ofNat ('a'.toNat + c.val), Char.ofNat ('0'.toNat + (8 - r.val))] := by
  revert r c
  decide

theorem toAlgebraic_eq (from_ to_ : Square) (ty : Kind) (captured : Option Piece)
    (promotion : Option String) :
    toAlgebraic from_ to_ ty captured promotion =
      String.mk
        ([Char.ofNat ('a'.toNat + from_.c.val), Char.ofNat ('0'.toNat + (8 - from_.r.val)),
            if captured.isSome then 'x' else '-',
            Char.ofNat ('a'.toNat + to_.c.val), Char.ofNat ('0'.toNat + (8 - to_.r.val))] ++
          (match promotion with
            | some pr => if pr = "" then [] else '=' :: pr.data.map Char.toUpper
            | none => [])) := by
  unfold toAlgebraic
  dsimp only
  rw [file_rank from_.r from_.c, file_rank to_.r to_.c]
  apply String.ext
  cases promotion with
  | none => cases captured <;> simp
  | some pr =>
    by_cases hpr : pr = ""
    · cases captured <;> simp [hpr]
    · cases captured <;> simp [hpr, toUpperCase]

theorem calc_sound (fuel : Nat) (hfuel : 8 ≤ fuel) (board : Board) (r c : Int) (p : Piece)
    (hp : readCell board r c = .ok (some p)) :
    ∃ ms, calcLegalMoves fuel board r c = .ok ms ∧
      ∀ d ∈ ms, inside d.r d.c = true ∧
        (readCell board d.r d.c = .ok none ∨
          ∃ q, readCell board d.r d.c = .ok (some q) ∧ q.color ≠ p.color) := by
  have hrc := inside_of_readCell_some hp
  obtain ⟨ty, col⟩ := p
  cases ty with
  | p =>
    obtain ⟨ms, h1, h2⟩ := pawn_spec board col r c hrc
    refine ⟨ms, by rw [calc_pawn fuel board r c _ hp rfl, h1], fun d hd => ?_⟩
    rcases (h2 d).mp hd with (⟨rfl, h3, h4⟩ | ⟨rfl, h3, -, h4⟩) | ⟨dc, -, rfl, h3, h4⟩
    · exact ⟨h3, Or.inl h4⟩
    · refine ⟨?_, Or.inl h4⟩
      rw [inside_iff] at hrc ⊢
      dsimp only
      revert h3
      cases col <;> simp [dirOf] <;> omega
    · exact ⟨h3, Or.inr h4⟩
  | n =>
    obtain ⟨ms, h1, h2, -⟩ := stepMoves_squares board col r c knightOffsets
    refine ⟨ms, ?_, fun d hd => lands_square (h2 d hd)⟩
    unfold calcLegalMoves
    rw [hp]
    exact h1
  | k =>
    obtain ⟨ms, h1, h2, -⟩ := stepMoves_squares board col r c queenDirs
    refine ⟨ms, ?_, fun d hd => lands_square (h2 d hd)⟩
    unfold calcLegalMoves
    rw [hp]
    exact h1
  | b =>
    obtain ⟨ms, h1, h2, -⟩ := castRays_squares fuel hfuel board col r c hrc bishopDirs
      unitDir_of_bishopDirs
    refine ⟨ms, ?_, fun d hd => lands_square (h2 d hd)⟩
    unfold calcLegalMoves
    rw [hp]
    exact h1
  | r =>
    obtain ⟨ms, h1, h2, -⟩ := castRays_squares fuel hfuel board col r c hrc rookDirs
      unitDir_of_rookDirs
    refine ⟨ms, ?_, fun d hd => lands_square (h2 d hd)⟩
    unfold calcLegalMoves
    rw [hp]
    exact h1
  | q =>
    obtain ⟨ms, h1, h2, -⟩ := castRays_squares fuel hfuel board col r c hrc queenDirs
      unitDir_of_queenDirs
    refine ⟨ms, ?_, fun d hd => lands_square (h2 d hd)⟩
    unfold calcLegalMoves
    rw [hp]
    exact h1

/-! ## The destination sets of the pieces -/

/-- C1: in every state, for an occupied square `from` and a square `to` that is among the
destinations `calcLegalMoves` returns for `from`, `makeMove(from, to)` completes and a
following `undo()` gives back the state it started from: the same board, turn, history and
move list; so `calcLegalMoves` for `from` returns the same list again. Captures and
promotions are included. -/
theorem C1_undo_after_makeMove (fuel : Nat) (s : State) (from_ to_ : Square) (pc : Piece)
    (ms : List Dest) (d : Dest) (hocc : s.board from_.r from_.c = some pc)
    (hms : calcLegalMoves fuel s.board (from_.r.val : Int) (from_.c.val : Int) = .ok ms)
    (_hd : d ∈ ms) (_hr : d.r = (to_.r.val : Int)) (_hc : d.c = (to_.c.val : Int)) :
    ∃ s1, makeMove s from_ to_ = .normal s1 ∧ undo s1 = s ∧
      calcLegalMoves fuel (undo s1).board (from_.r.val : Int) (from_.c.val : Int) = .ok ms := by
  obtain ⟨s1, h1, h2⟩ := undo_makeMove s from_ to_ pc hocc
  exact ⟨s1, h1, h2, by rw [h2, hms]⟩

/-- C1, on the board with a white pawn on (1,3) and a black rook on (0,4): the pawn takes the
rook and promotes, and `undo` restores the state. -/
theorem C1_undo_after_makeMove_witness :
    ∃ s1, makeMove promoState ⟨1, 3⟩ ⟨0, 4⟩ = .normal s1 ∧ undo s1 = promoState ∧
      calcLegalMoves 8 (undo s1).board ((1 : Fin 8).val : Int) ((3 : Fin 8).val : Int) =
        .ok [⟨0, 3, false, true⟩, ⟨0, 4, true, true⟩] :=
  C1_undo_after_makeMove 8 promoState ⟨1, 3⟩ ⟨0, 4⟩ ⟨Kind.p, Color.w⟩
    [⟨0, 3, false, true⟩, ⟨0, 4, true, true⟩] ⟨0, 4, true, true⟩ (by decide) (by decide)
    (by decide) (by decide) (by decide)

/-- C2: for a piece of any kind and colour on an on-board square `(r, c)`, with enough loop
fuel `calcLegalMoves` returns a list, and every destination in it has row and column in
`0..7` and its square does not hold a piece of the moving piece's colour. -/
theorem C2_destinations_on_board_not_own (fuel : Nat) (hfuel : 8 ≤ fuel) (board : Board)
    (r c : Int) (p : Piece) (_hrc : inside r c = true)
    (hp : readCell board r c = .ok (some p)) :
    ∃ ms, calcLegalMoves fuel board r c = .ok ms ∧
      ∀ d ∈ ms, (0 ≤ d.r ∧ d.r ≤ 7 ∧ 0 ≤ d.c ∧ d.c ≤ 7) ∧
        ∀ q, readCell board d.r d.c = .ok (some q) → q.color ≠ p.color := by
  obtain ⟨ms, h1, h2⟩ := calc_sound fuel hfuel board r c p hp
  refine ⟨ms, h1, fun d hd => ?_⟩
  obtain ⟨h3, h4⟩ := h2 d hd
  refine ⟨?_, fun q hq => ?_⟩
  · rw [inside_iff] at h3
    omega
  · rcases h4 with h5 | ⟨q1, h5, h6⟩
    · rw [hq] at h5
      cases h5
    · rw [hq] at h5
      cases h5
      exact h6

/-- C2, in the starting position: the white queen on (7,3) is hemmed in by its own pieces
and has no destination. -/
theorem C2_destinations_on_board_not_own_witness :
    calcLegalMoves 8 startBoard 7 3 = .ok [] ∧
      ∃ ms, calcLegalMoves 8 startBoard 7 3 = .ok ms ∧
        ∀ d ∈ ms, (0 ≤ d.r ∧ d.r ≤ 7 ∧ 0 ≤ d.c ∧ d.c ≤ 7) ∧
          ∀ q, readCell startBoard d.r d.c = .ok (some q) → q.color ≠ Color.w :=
  ⟨by decide,
    C2_destinations_on_board_not_own 8 (le_refl 8) startBoard 7 3 ⟨Kind.q, Color.w⟩
      (by decide) (by decide)⟩

/-- C3: for a bishop, rook or queen on an on-board square `(r, c)`, with enough loop fuel
`calcLegalMoves` returns a list, and a square `(tr, tc)` is among its destinations exactly
when it is `(r + k*dr, c + k*dc)` for some `k ≥ 1` and a direction of the piece (the four
diagonals for bishop and queen, the four orthogonals for rook and queen), it is on the
board, every square strictly between is on the board and empty, and it is empty or holds
a piece of the other colour; a destination carries `capture = true` exactly when its
square is occupied. -/
theorem C3_slider_destinations (fuel : Nat) (hfuel : 8 ≤ fuel) (board : Board) (r c : Int)
    (p : Piece) (hrc : inside r c = true) (hp : readCell board r c = .ok (some p))
    (hk : p.type = Kind.b ∨ p.type = Kind.r ∨ p.type = Kind.q) :
    ∃ ms, calcLegalMoves fuel board r c = .ok ms ∧
      (∀ tr tc : Int, (∃ d ∈ ms, d.r = tr ∧ d.c = tc) ↔
        (∃ dr dc k : Int,
          (((p.type = Kind.b ∨ p.type = Kind.q) ∧ (dr = 1 ∨ dr = -1) ∧ (dc = 1 ∨ dc = -1)) ∨
            ((p.type = Kind.r ∨ p.type = Kind.q) ∧
              (((dr = 1 ∨ dr = -1) ∧ dc = 0) ∨ (dr = 0 ∧ (dc = 1 ∨ dc = -1))))) ∧
          1 ≤ k ∧ tr = r + k * dr ∧ tc = c + k * dc ∧
          ∀ j : Int, 1 ≤ j → j < k →
            inside (r + j * dr) (c + j * dc) = true ∧
              readCell board (r + j * dr) (c + j * dc) = .ok none) ∧
        inside tr tc = true ∧
          (readCell board tr tc = .ok none ∨
            ∃ q, readCell board tr tc = .ok (some q) ∧ q.color ≠ p.color)) ∧
      (∀ d ∈ ms, (d.capture = true ↔ ∃ q, readCell board d.r d.c = .ok (some q))) := by
  obtain ⟨ty, col⟩ := p
  dsimp only at hk ⊢
  unfold calcLegalMoves
  rw [hp]
  dsimp only
  rcases hk with rfl | rfl | rfl
  · obtain ⟨ms, h1, h2, h3⟩ := castRays_squares fuel hfuel board col r c hrc bishopDirs
      unitDir_of_bishopDirs
    refine ⟨ms, h1, fun tr tc => ?_, fun d hd => lands_capture_iff (h2 d hd)⟩
    rw [h3 tr tc]
    simp only [mem_bishopDirs, true_or, true_and, reduceCtorEq, false_or, false_and, or_false]
  · obtain ⟨ms, h1, h2, h3⟩ := castRays_squares fuel hfuel board col r c hrc rookDirs
      unitDir_of_rookDirs
    refine ⟨ms, h1, fun tr tc => ?_, fun d hd => lands_capture_iff (h2 d hd)⟩
    rw [h3 tr tc]
    simp only [mem_rookDirs, true_or, true_and, reduceCtorEq, false_or, false_and, or_false]
  · obtain ⟨ms, h1, h2, h3⟩ := castRays_squares fuel hfuel board col r c hrc queenDirs
      unitDir_of_queenDirs
    refine ⟨ms, h1, fun tr tc => ?_, fun d hd => lands_capture_iff (h2 d hd)⟩
    rw [h3 tr tc]
    have hq : ∀ dr dc : Int, (dr, dc) ∈ queenDirs ↔
        (((dr = 1 ∨ dr = -1) ∧ (dc = 1 ∨ dc = -1)) ∨
          (((dr = 1 ∨ dr = -1) ∧ dc = 0) ∨ (dr = 0 ∧ (dc = 1 ∨ dc = -1)))) := by
      intro dr dc
      rw [mem_queenDirs]
      omega
    simp only [hq, or_true, true_and, reduceCtorEq, false_or]

/-- C3, at a concrete board: a white rook on (4,4) with its own pawn on (4,1), a black pawn
on (1,4) and a black knight behind it on (0,4). -/
theorem C3_slider_destinations_witness :
    calcLegalMoves 8 rookBoard 4 4 =
        .ok [⟨3, 4, false, false⟩, ⟨2, 4, false, false⟩, ⟨1, 4, true, false⟩,
          ⟨5, 4, false, false⟩, ⟨6, 4, false, false⟩, ⟨7, 4, false, false⟩,
          ⟨4, 3, false, false⟩, ⟨4, 2, false, false⟩,
          ⟨4, 5, false, false⟩, ⟨4, 6, false, false⟩, ⟨4, 7, false, false⟩] ∧
      ∃ ms, calcLegalMoves 8 rookBoard 4 4 = .ok ms ∧
        (∀ tr tc : Int, (∃ d ∈ ms, d.r = tr ∧ d.c = tc) ↔
          (∃ dr dc k : Int,
            (((Kind.r = Kind.b ∨ Kind.r = Kind.q) ∧ (dr = 1 ∨ dr = -1) ∧ (dc = 1 ∨ dc = -1)) ∨
              ((Kind.r = Kind.r ∨ Kind.r = Kind.q) ∧
                (((dr = 1 ∨ dr = -1) ∧ dc = 0) ∨ (dr = 0 ∧ (dc = 1 ∨ dc = -1))))) ∧
            1 ≤ k ∧ tr = 4 + k * dr ∧ tc = 4 + k * dc ∧
            ∀ j : Int, 1 ≤ j → j < k →
              inside (4 + j * dr) (4 + j * dc) = true ∧
                readCell rookBoard (4 + j * dr) (4 + j * dc) = .ok none) ∧
          inside tr tc = true ∧
            (readCell rookBoard tr tc = .ok none ∨
              ∃ q, readCell rookBoard tr tc = .ok (some q) ∧ q.color ≠ Color.w)) ∧
        (∀ d ∈ ms, (d.capture = true ↔ ∃ q, readCell rookBoard d.r d.c = .ok (some q))) :=
  ⟨by decide,
    C3_slider_destinations 8 (le_refl 8) rookBoard 4 4 ⟨Kind.r, Color.w⟩ (by decide)
      (by decide) (Or.inr (Or.inl rfl))⟩

/-- C6: for a knight or a king on an on-board square `(r, c)`, `calcLegalMoves` returns a
list, and a square `(tr, tc)` is among its destinations exactly when it is `(r + dr, c + dc)`
for one of the piece's eight offsets (knight: `(±1, ±2)` and `(±2, ±1)`; king: the eight
adjacent squares), it is on the board, and it is empty or holds a piece of the other
colour; a destination carries `capture = true` exactly when its square is occupied. -/
theorem C6_knight_king_destinations (fuel : Nat) (board : Board) (r c : Int) (p : Piece)
    (hp : readCell board r c = .ok (some p)) (hk : p.type = Kind.n ∨ p.type = Kind.k) :
    ∃ ms, calcLegalMoves fuel board r c = .ok ms ∧
      (∀ tr tc : Int, (∃ d ∈ ms, d.r = tr ∧ d.c = tc) ↔
        (∃ dr dc : Int,
          ((p.type = Kind.n ∧
              (((dr = 1 ∨ dr = -1) ∧ (dc = 2 ∨ dc = -2)) ∨
                ((dr = 2 ∨ dr = -2) ∧ (dc = 1 ∨ dc = -1)))) ∨
            (p.type = Kind.k ∧
              (dr = -1 ∨ dr = 0 ∨ dr = 1) ∧ (dc = -1 ∨ dc = 0 ∨ dc = 1) ∧
                ¬ (dr = 0 ∧ dc = 0))) ∧
          tr = r + dr ∧ tc = c + dc) ∧
        inside tr tc = true ∧
          (readCell board tr tc = .ok none ∨
            ∃ q, readCell board tr tc = .ok (some q) ∧ q.color ≠ p.color)) ∧
      (∀ d ∈ ms, (d.capture = true ↔ ∃ q, readCell board d.r d.c = .ok (some q))) := by
  obtain ⟨ty, col⟩ := p
  dsimp only at hk ⊢
  unfold calcLegalMoves
  rw [hp]
  dsimp only
  rcases hk with rfl | rfl
  · obtain ⟨ms, h1, h2, h3⟩ := stepMoves_squares board col r c knightOffsets
    refine ⟨ms, h1, fun tr tc => ?_, fun d hd => lands_capture_iff (h2 d hd)⟩
    rw [h3 tr tc]
    simp only [mem_knightOffsets, true_and, reduceCtorEq, false_and, or_false]
  · obtain ⟨ms, h1, h2, h3⟩ := stepMoves_squares board col r c queenDirs
    refine ⟨ms, h1, fun tr tc => ?_, fun d hd => lands_capture_iff (h2 d hd)⟩
    rw [h3 tr tc]
    simp only [mem_queenDirs, true_and, reduceCtorEq, false_and, false_or]

/-- C6, in the starting position: the white knight on (7,1) has exactly the destinations
(5,0) and (5,2), neither marked capture. -/
theorem C6_knight_king_destinations_witness :
    calcLegalMoves 8 startBoard 7 1 = .ok [⟨5, 0, false, false⟩, ⟨5, 2, false, false⟩] ∧
      ∃ ms, calcLegalMoves 8 startBoard 7 1 = .ok ms ∧
        (∀ tr tc : Int, (∃ d ∈ ms, d.r = tr ∧ d.c = tc) ↔
          (∃ dr dc : Int,
            ((Kind.n = Kind.n ∧
                (((dr = 1 ∨ dr = -1) ∧ (dc = 2 ∨ dc = -2)) ∨
                  ((dr = 2 ∨ dr = -2) ∧ (dc = 1 ∨ dc = -1)))) ∨
              (Kind.n = Kind.k ∧
                (dr = -1 ∨ dr = 0 ∨ dr = 1) ∧ (dc = -1 ∨ dc = 0 ∨ dc = 1) ∧
                  ¬ (dr = 0 ∧ dc = 0))) ∧
            tr = 7 + dr ∧ tc = 1 + dc) ∧
          inside tr tc = true ∧
            (readCell startBoard tr tc = .ok none ∨
              ∃ q, readCell startBoard tr tc = .ok (some q) ∧ q.color ≠ Color.w)) ∧
        (∀ d ∈ ms, (d.capture = true ↔ ∃ q, readCell startBoard d.r d.c = .ok (some q))) :=
  ⟨by decide,
    C6_knight_king_destinations 8 startBoard 7 1 ⟨Kind.n, Color.w⟩ (by decide) (Or.inl rfl)⟩

/-- C4: for a pawn on an on-board square `(r, c)`, with `dir = -1` for white and `+1` for
black and start row 6 for white and 1 for black, `calcLegalMoves` returns a list whose
destinations with `capture = false` lie on `(r + dir, c)` or `(r + 2*dir, c)`; `(r + dir, c)`
is such a destination exactly when it is on the board and empty, and `(r + 2*dir, c)` is one
exactly when `r` is the start row and both `(r + dir, c)` and `(r + 2*dir, c)` are on the
board and empty. -/
theorem C4_pawn_forward (fuel : Nat) (board : Board) (r c : Int) (p : Piece)
    (hp : readCell board r c = .ok (some p)) (hk : p.type = Kind.p)
    (dir startRow : Int) (hdir : dir = if p.color = Color.w then -1 else 1)
    (hstart : startRow = if p.color = Color.w then 6 else 1) :
    ∃ ms, calcLegalMoves fuel board r c = .ok ms ∧
      (∀ d ∈ ms, d.capture = false → d.c = c ∧ (d.r = r + dir ∨ d.r = r + 2 * dir)) ∧
      ((∃ d ∈ ms, d.capture = false ∧ d.r = r + dir ∧ d.c = c) ↔
        (inside (r + dir) c = true ∧ readCell board (r + dir) c = .ok none)) ∧
      ((∃ d ∈ ms, d.capture = false ∧ d.r = r + 2 * dir ∧ d.c = c) ↔
        (r = startRow ∧
          (inside (r + dir) c = true ∧ readCell board (r + dir) c = .ok none) ∧
          (inside (r + 2 * dir) c = true ∧ readCell board (r + 2 * dir) c = .ok none))) := by
  have hrc := inside_of_readCell_some hp
  obtain ⟨ms, h1, h2⟩ := pawn_spec board p.color r c hrc
  have hd : dir = dirOf p.color := by rw [hdir]; rfl
  have h2d : r + 2 * dir = r + dirOf p.color * 2 := by rw [hd]; ring
  rw [hstart, h2d, hd]
  refine ⟨ms, by rw [calc_pawn fuel board r c p hp hk, h1], ?_, ?_, ?_⟩
  · intro d hdm hcap
    rcases (h2 d).mp hdm with (⟨rfl, -⟩ | ⟨rfl, -⟩) | ⟨dc, -, rfl, -⟩
    · exact ⟨rfl, Or.inl rfl⟩
    · exact ⟨rfl, Or.inr rfl⟩
    · cases hcap
  · constructor
    · rintro ⟨d, hdm, hcap, hr, hc⟩
      rcases (h2 d).mp hdm with (⟨-, h3, h4⟩ | ⟨rfl, -⟩) | ⟨dc, -, rfl, -⟩
      · exact ⟨h3, h4⟩
      · dsimp only at hr
        omega
      · cases hcap
    · rintro ⟨h3, h4⟩
      exact ⟨_, (h2 _).mpr (Or.inl (Or.inl ⟨rfl, h3, h4⟩)), rfl, rfl, rfl⟩
  · constructor
    · rintro ⟨d, hdm, hcap, hr, hc⟩
      rcases (h2 d).mp hdm with (⟨rfl, -⟩ | ⟨-, h3, h4, h5⟩) | ⟨dc, -, rfl, -⟩
      · dsimp only at hr
        omega
      · refine ⟨h3, ⟨?_, h4⟩, ?_, h5⟩
        · rw [inside_iff] at hrc ⊢
          revert h3
          cases p.color <;> simp [dirOf] <;> omega
        · rw [inside_iff] at hrc ⊢
          revert h3
          cases p.color <;> simp [dirOf] <;> omega
      · cases hcap
    · rintro ⟨h3, ⟨-, h4⟩, -, h5⟩
      exact ⟨_, (h2 _).mpr (Or.inl (Or.inr ⟨rfl, h3, h4, h5⟩)), rfl, rfl, rfl⟩

/-- C4, in the starting position: the white pawn on (6,4) has the two forward destinations
(5,4) and (4,4). -/
theorem C4_pawn_forward_witness :
    calcLegalMoves 8 startBoard 6 4 = .ok [⟨5, 4, false, false⟩, ⟨4, 4, false, false⟩] ∧
      ∃ ms, calcLegalMoves 8 startBoard 6 4 = .ok ms ∧
        (∀ d ∈ ms, d.capture = false → d.c = 4 ∧ (d.r = 6 + -1 ∨ d.r = 6 + 2 * -1)) ∧
        ((∃ d ∈ ms, d.capture = false ∧ d.r = 6 + -1 ∧ d.c = 4) ↔
          (inside (6 + -1) 4 = true ∧ readCell startBoard (6 + -1) 4 = .ok none)) ∧
        ((∃ d ∈ ms, d.capture = false ∧ d.r = 6 + 2 * -1 ∧ d.c = 4) ↔
          ((6 : Int) = 6 ∧
            (inside (6 + -1) 4 = true ∧ readCell startBoard (6 + -1) 4 = .ok none) ∧
            (inside (6 + 2 * -1) 4 = true ∧
              readCell startBoard (6 + 2 * -1) 4 = .ok none))) :=
  ⟨by decide,
    C4_pawn_forward 8 startBoard 6 4 ⟨Kind.p, Color.w⟩ (by decide) rfl (-1) 6 (by decide)
      (by decide)⟩

/-- C5: for a pawn on an on-board square `(r, c)`, with `dir = -1` for white and `+1` for
black, `calcLegalMoves` returns a list in which a diagonal square `(r + dir, c + dc)`,
`dc = -1` or `+1`, is a destination exactly when it is on the board and holds a piece of the
other colour, and every destination on such a square carries `capture = true`. -/
theorem C5_pawn_captures (fuel : Nat) (board : Board) (r c : Int) (p : Piece)
    (hp : readCell board r c = .ok (some p)) (hk : p.type = Kind.p)
    (dir : Int) (hdir : dir = if p.color = Color.w then -1 else 1) :
    ∃ ms, calcLegalMoves fuel board r c = .ok ms ∧
      ∀ dc : Int, (dc = -1 ∨ dc = 1) →
        ((∃ d ∈ ms, d.r = r + dir ∧ d.c = c + dc) ↔
          (inside (r + dir) (c + dc) = true ∧
            ∃ q, readCell board (r + dir) (c + dc) = .ok (some q) ∧ q.color ≠ p.color)) ∧
        (∀ d ∈ ms, d.r = r + dir → d.c = c + dc → d.capture = true) := by
  have hrc := inside_of_readCell_some hp
  obtain ⟨ms, h1, h2⟩ := pawn_spec board p.color r c hrc
  have hd : dir = dirOf p.color := by rw [hdir]; rfl
  rw [hd]
  refine ⟨ms, by rw [calc_pawn fuel board r c p hp hk, h1], fun dc hdc => ⟨?_, ?_⟩⟩
  · constructor
    · rintro ⟨d, hdm, hr, hc⟩
      rcases (h2 d).mp hdm with (⟨rfl, -⟩ | ⟨rfl, -⟩) | ⟨dc1, -, rfl, h3, h4⟩
      · dsimp only at hc
        omega
      · dsimp only at hc
        omega
      · dsimp only at hc
        have : dc1 = dc := by omega
        subst this
        exact ⟨h3, h4⟩
    · rintro ⟨h3, h4⟩
      refine ⟨_, (h2 _).mpr (Or.inr ⟨dc, ?_, rfl, h3, h4⟩), rfl, rfl⟩
      rcases hdc with rfl | rfl <;> simp
  · intro d hdm hr hc
    rcases (h2 d).mp hdm with (⟨rfl, -⟩ | ⟨rfl, -⟩) | ⟨dc1, -, rfl, -⟩
    · dsimp only at hc
      omega
    · dsimp only at hc
      omega
    · rfl

/-- C5, on the board with a white pawn on (6,4) and a black pawn on (5,3): the pawn's
destinations are the forward squares (5,4) and (4,4) and the capture on (5,3). -/
theorem C5_pawn_captures_witness :
    calcLegalMoves 8 pawnCaptureBoard 6 4 =
        .ok [⟨5, 4, false, false⟩, ⟨4, 4, false, false⟩, ⟨5, 3, true, false⟩] ∧
      ∃ ms, calcLegalMoves 8 pawnCaptureBoard 6 4 = .ok ms ∧
        ∀ dc : Int, (dc = -1 ∨ dc = 1) →
          ((∃ d ∈ ms, d.r = 6 + -1 ∧ d.c = 4 + dc) ↔
            (inside (6 + -1) (4 + dc) = true ∧
              ∃ q, readCell pawnCaptureBoard (6 + -1) (4 + dc) = .ok (some q) ∧
                q.color ≠ Color.w)) ∧
          (∀ d ∈ ms, d.r = 6 + -1 → d.c = 4 + dc → d.capture = true) :=
  ⟨by decide,
    C5_pawn_captures 8 pawnCaptureBoard 6 4 ⟨Kind.p, Color.w⟩ (by decide) rfl (-1)
      (by decide)⟩

/-- C7: for a pawn on an on-board square, `calcLegalMoves` returns a list in which every
destination has `promotion = true` exactly when its row is 0 or 7, and `makeMove` to such a
destination completes and leaves a queen of the pawn's colour on it exactly when the flag
is on, and the pawn itself exactly when the flag is off. -/
theorem C7_pawn_promotion_flag (fuel : Nat) (s : State) (from_ : Square) (p : Piece)
    (hp : s.board from_.r from_.c = some p) (hk : p.type = Kind.p) :
    ∃ ms, calcLegalMoves fuel s.board (from_.r.val : Int) (from_.c.val : Int) = .ok ms ∧
      ∀ d ∈ ms, (d.promotion = true ↔ (d.r = 0 ∨ d.r = 7)) ∧
        ∀ to_ : Square, (to_.r.val : Int) = d.r → (to_.c.val : Int) = d.c →
          ∃ s1, makeMove s from_ to_ = .normal s1 ∧
            (d.promotion = true ↔
              s1.board to_.r to_.c = some { type := Kind.q, color := p.color }) ∧
            (d.promotion = false ↔ s1.board to_.r to_.c = some p) := by
  have hread : readCell s.board (from_.r.val : Int) (from_.c.val : Int) = .ok (some p) := by
    rw [readCell_square, hp]
  obtain ⟨ms, h1, -⟩ := pawn_spec s.board p.color from_.r.val from_.c.val (inside_square from_)
  refine ⟨ms, by rw [calc_pawn fuel s.board _ _ p hread hk, h1], fun d hd => ?_⟩
  obtain ⟨h3, h4⟩ := pawn_dest_promo s.board p.color _ _ (inside_square from_) ms h1 d hd
  refine ⟨h3, fun to_ hr hc => ⟨_, makeMove_piece s from_ to_ p hp, ?_⟩⟩
  have hne : ¬ (to_.r = from_.r ∧ to_.c = from_.c) := by
    rintro ⟨h5, -⟩
    rw [h5] at hr
    exact h4 hr.symm
  have hq : (some { type := Kind.q, color := p.color } : Option Piece) ≠ some p := by
    intro h5
    have h6 := congrArg Piece.type (Option.some.inj h5)
    rw [hk] at h6
    cases h6
  have hrow : (to_.r.val = 0 ∨ to_.r.val = 7) ↔ (d.r = 0 ∨ d.r = 7) := by
    rw [← hr]
    omega
  by_cases hpromo : d.r = 0 ∨ d.r = 7
  · have h5 : (decide (p.type = Kind.p) &&
        (decide (to_.r.val = 0) || decide (to_.r.val = 7))) = true := by
      simp only [Bool.and_eq_true, Bool.or_eq_true, decide_eq_true_eq]
      exact ⟨hk, hrow.mpr hpromo⟩
    have h6 : d.promotion = true := h3.mpr hpromo
    simp only [h5, if_true, setCell, and_self, h6, true_iff, Bool.true_eq_false, false_iff]
    exact ⟨trivial, hq⟩
  · have h5 : ¬ (decide (p.type = Kind.p) &&
        (decide (to_.r.val = 0) || decide (to_.r.val = 7))) = true := by
      intro h
      simp only [Bool.and_eq_true, Bool.or_eq_true, decide_eq_true_eq] at h
      exact hpromo (hrow.mp h.2)
    have h6 : d.promotion = false := by
      cases h7 : d.promotion
      · rfl
      · exact absurd (h3.mp h7) hpromo
    simp only [h5, if_false, setCell, hne, and_self, if_true, h6, Bool.false_eq_true,
      false_iff, true_iff]
    exact ⟨fun h => hq h.symm, trivial⟩

/-- C7, on the board with a white pawn on (1,3) and a black rook on (0,4): both pawn
destinations, the step to (0,3) and the capture on (0,4), carry `promotion = true`. -/
theorem C7_pawn_promotion_flag_witness :
    calcLegalMoves 8 promoState.board 1 3 = .ok [⟨0, 3, false, true⟩, ⟨0, 4, true, true⟩] ∧
      ∃ ms, calcLegalMoves 8 promoState.board 1 3 = .ok ms ∧
        ∀ d ∈ ms, (d.promotion = true ↔ (d.r = 0 ∨ d.r = 7)) ∧
          ∀ to_ : Square, (to_.r.val : Int) = d.r → (to_.c.val : Int) = d.c →
            ∃ s1, makeMove promoState ⟨1, 3⟩ to_ = .normal s1 ∧
              (d.promotion = true ↔
                s1.board to_.r to_.c = some { type := Kind.q, color := Color.w }) ∧
              (d.promotion = false ↔ s1.board to_.r to_.c = some ⟨Kind.p, Color.w⟩) :=
  ⟨by decide, C7_pawn_promotion_flag 8 promoState ⟨1, 3⟩ ⟨Kind.p, Color.w⟩ (by decide) rfl⟩

/-! ## Promotion, turn and notation on a move -/

/-- C8: when the piece on `from` is a pawn and the row of `to` is 0 or 7, `makeMove`
completes, the board then holds a queen of the pawn's colour on `to`, the record pushed on
`history` has promotion "q", and the string pushed on `moveList` ends with "=Q". -/
theorem C8_promotion_on_move (s : State) (from_ to_ : Square) (pc : Piece)
    (hocc : s.board from_.r from_.c = some pc) (hk : pc.type = Kind.p)
    (hrow : to_.r.val = 0 ∨ to_.r.val = 7) :
    ∃ s1, makeMove s from_ to_ = .normal s1 ∧
      s1.board to_.r to_.c = some { type := Kind.q, color := pc.color } ∧
      (∃ rec, s1.history = s.history ++ [rec] ∧ rec.promotion = some "q") ∧
      ∃ str pre, s1.moveList = s.moveList ++ [str] ∧ str = pre ++ "=Q" := by
  have h5 : (decide (pc.type = Kind.p) &&
      (decide (to_.r.val = 0) || decide (to_.r.val = 7))) = true := by
    simp only [Bool.and_eq_true, Bool.or_eq_true, decide_eq_true_eq]
    exact ⟨hk, hrow⟩
  refine ⟨_, makeMove_piece s from_ to_ pc hocc, ?_, ⟨_, rfl, ?_⟩, _, ?_, rfl, ?_⟩
  · simp only [h5, if_true, setCell, and_self]
  · simp only [h5, if_true]
  · exact file from_.c.val ++ toString (8 - from_.r.val) ++
      (if (s.board to_.r to_.c).isSome then "x" else "-") ++
      (file to_.c.val ++ toString (8 - to_.r.val))
  · simp only [h5, if_true, toAlgebraic]
    rfl

/-- C8, on the board with a white pawn on (1,3) and an empty (0,3): the move to (0,3) leaves
a white queen there and is written "d7-d8=Q". -/
theorem C8_promotion_on_move_witness :
    (makeMove promoState ⟨1, 3⟩ ⟨0, 3⟩).state.board 0 3 = some ⟨Kind.q, Color.w⟩ ∧
      (makeMove promoState ⟨1, 3⟩ ⟨0, 3⟩).state.moveList = ["d7-d8=Q"] ∧
      ∃ s1, makeMove promoState ⟨1, 3⟩ ⟨0, 3⟩ = .normal s1 ∧
        s1.board 0 3 = some { type := Kind.q, color := Color.w } ∧
        (∃ rec, s1.history = promoState.history ++ [rec] ∧ rec.promotion = some "q") ∧
        ∃ str pre, s1.moveList = promoState.moveList ++ [str] ∧ str = pre ++ "=Q" :=
  ⟨by decide, by decide,
    C8_promotion_on_move promoState ⟨1, 3⟩ ⟨0, 3⟩ ⟨Kind.p, Color.w⟩ (by decide) rfl
      (Or.inl rfl)⟩

/-- C9: after `newGame` and any sequence of `N` calls of `makeMove` that all complete
normally, `turn` is white when `N` is even and black when `N` is odd. -/
theorem C9_turn_alternates (s0 : State) (moves : List (Square × Square)) (s : State)
    (h : playMoves (newGame s0) moves = .normal s) :
    s.turn = if moves.length % 2 = 0 then Color.w else Color.b := by
  rw [playMoves_turn moves (newGame s0) s h]
  rfl

/-- C9, after the three moves e2-e4, e7-e5, g1-f3 from the starting position: it is black's
turn. -/
theorem C9_turn_alternates_witness :
    (playMoves (newGame emptyState)
        [(⟨6, 4⟩, ⟨4, 4⟩), (⟨1, 4⟩, ⟨3, 4⟩), (⟨7, 6⟩, ⟨5, 5⟩)]).state.turn = Color.b :=
  C9_turn_alternates emptyState [(⟨6, 4⟩, ⟨4, 4⟩), (⟨1, 4⟩, ⟨3, 4⟩), (⟨7, 6⟩, ⟨5, 5⟩)]
    (playMoves (newGame emptyState)
      [(⟨6, 4⟩, ⟨4, 4⟩), (⟨1, 4⟩, ⟨3, 4⟩), (⟨7, 6⟩, ⟨5, 5⟩)]).state rfl

/-- C10: for the two values of `promotion` that `makeMove` passes, `null` and "q",
`toAlgebraic` returns the file letter `'a' + from.c`, the rank digit `8 - from.r`, the
separator `x` when its `captured` argument is a piece and `-` when it is `null`, the file
letter `'a' + to.c`, the rank digit `8 - to.r`, and then "=Q" exactly when `promotion` is
"q"; and `makeMove` from an occupied square pushes that string with the pre-move occupant
of `to` as `captured`, ending in "=Q" exactly when the pushed record has promotion "q",
which is exactly when a pawn lands on row 0 or 7. -/
theorem C10_algebraic_format (s : State) (from_ to_ : Square) (pc : Piece)
    (hocc : s.board from_.r from_.c = some pc) :
    (∀ (ty : Kind) (captured : Option Piece) (promotion : Option String),
      (promotion = none ∨ promotion = some "q") →
      toAlgebraic from_ to_ ty captured promotion =
        String.mk
          ([Char.ofNat ('a'.toNat + from_.c.val), Char.ofNat ('0'.toNat + (8 - from_.r.val)),
              if captured.isSome then 'x' else '-',
              Char.ofNat ('a'.toNat + to_.c.val), Char.ofNat ('0'.toNat + (8 - to_.r.val))] ++
            (if promotion = some "q" then ['=', 'Q'] else []))) ∧
    ∃ s1 rec, makeMove s from_ to_ = .normal s1 ∧
      s1.history = s.history ++ [rec] ∧
      (rec.promotion = some "q" ↔ (pc.type = Kind.p ∧ (to_.r.val = 0 ∨ to_.r.val = 7))) ∧
      s1.moveList = s.moveList ++
        [String.mk
          ([Char.ofNat ('a'.toNat + from_.c.val), Char.ofNat ('0'.toNat + (8 - from_.r.val)),
              if (s.board to_.r to_.c).isSome then 'x' else '-',
              Char.ofNat ('a'.toNat + to_.c.val), Char.ofNat ('0'.toNat + (8 - to_.r.val))] ++
            (if rec.promotion = some "q" then ['=', 'Q'] else []))] := by
  refine ⟨fun ty captured promotion hpromo => ?_, ?_⟩
  · rw [toAlgebraic_eq]
    rcases hpromo with rfl | rfl
    · rfl
    · rfl
  refine ⟨_, _, makeMove_piece s from_ to_ pc hocc, rfl, ?_, ?_⟩
  · by_cases h5 : (decide (pc.type = Kind.p) &&
        (decide (to_.r.val = 0) || decide (to_.r.val = 7))) = true
    · simp only [h5, if_true, true_iff]
      simpa only [Bool.and_eq_true, Bool.or_eq_true, decide_eq_true_eq] using h5
    · simp only [h5, if_false, reduceCtorEq, false_iff, Bool.false_eq_true]
      simpa only [Bool.and_eq_true, Bool.or_eq_true, decide_eq_true_eq] using h5
  · rw [toAlgebraic_eq]
    by_cases h5 : (decide (pc.type = Kind.p) &&
        (decide (to_.r.val = 0) || decide (to_.r.val = 7))) = true
    · simp only [h5, if_true]
      rfl
    · simp only [h5, if_false, reduceCtorEq, Bool.false_eq_true]

/-- C10, from the starting position: (4,4) is a destination of the pawn on (6,4) with
`capture = false`, and the move is written "e2-e4". -/
theorem C10_algebraic_format_witness :
    (calcLegalMoves 8 (newGame emptyState).board 6 4 =
        .ok [⟨5, 4, false, false⟩, ⟨4, 4, false, false⟩] ∧
      (makeMove (newGame emptyState) ⟨6, 4⟩ ⟨4, 4⟩).state.moveList = ["e2-e4"]) ∧
    ((∀ (ty : Kind) (captured : Option Piece) (promotion : Option String),
      (promotion = none ∨ promotion = some "q") →
      toAlgebraic ⟨6, 4⟩ ⟨4, 4⟩ ty captured promotion =
        String.mk
          ([Char.ofNat ('a'.toNat + (4 : Fin 8).val), Char.ofNat ('0'.toNat + (8 - (6 : Fin 8).val)),
              if captured.isSome then 'x' else '-',
              Char.ofNat ('a'.toNat + (4 : Fin 8).val),
              Char.ofNat ('0'.toNat + (8 - (4 : Fin 8).val))] ++
            (if promotion = some "q" then ['=', 'Q'] else []))) ∧
    ∃ s1 rec, makeMove (newGame emptyState) ⟨6, 4⟩ ⟨4, 4⟩ = .normal s1 ∧
      s1.history = (newGame emptyState).history ++ [rec] ∧
      (rec.promotion = some "q" ↔
        (Kind.p = Kind.p ∧ ((4 : Fin 8).val = 0 ∨ (4 : Fin 8).val = 7))) ∧
      s1.moveList = (newGame emptyState).moveList ++
        [String.mk
          ([Char.ofNat ('a'.toNat + (4 : Fin 8).val), Char.ofNat ('0'.toNat + (8 - (6 : Fin 8).val)),
              if ((newGame emptyState).board 4 4).isSome then 'x' else '-',
              Char.ofNat ('a'.toNat + (4 : Fin 8).val),
              Char.ofNat ('0'.toNat + (8 - (4 : Fin 8).val))] ++
            (if rec.promotion = some "q" then ['=', 'Q'] else []))]) :=
  ⟨⟨by decide, by decide⟩,
    C10_algebraic_format (newGame emptyState) ⟨6, 4⟩ ⟨4, 4⟩ ⟨Kind.p, Color.w⟩ (by decide)⟩

/-! ## The frame of a move, the starting position and repeated undo -/

theorem dest_ne_from (fuel : Nat) (hfuel : 8 ≤ fuel) (board : Board) (r c : Int) (p : Piece)
    (hp : readCell board r c = .ok (some p)) (ms : List Dest)
    (hms : calcLegalMoves fuel board r c = .ok ms) (d : Dest) (hd : d ∈ ms) :
    ¬ (d.r = r ∧ d.c = c) := by
  obtain ⟨ms1, h1, h2⟩ := calc_sound fuel hfuel board r c p hp
  rw [hms] at h1
  cases h1
  rintro ⟨hr, hc⟩
  obtain ⟨-, h3 | ⟨q, h3, h4⟩⟩ := h2 d hd
  · rw [hr, hc, hp] at h3
    cases h3
  · rw [hr, hc, hp] at h3
    cases h3
    exact h4 rfl

theorem square_ne_of_coords {from_ to_ : Square} {d : Dest}
    (hne : ¬ (d.r = (from_.r.val : Int) ∧ d.c = (from_.c.val : Int)))
    (hr : d.r = (to_.r.val : Int)) (hc : d.c = (to_.c.val : Int)) : from_ ≠ to_ := by
  rintro rfl
  exact hne ⟨hr, hc⟩

theorem makeMove_frame (s : State) (from_ to_ : Square) (pc : Piece)
    (hocc : s.board from_.r from_.c = some pc) (hne : from_ ≠ to_) :
    ∃ s1 rec str, makeMove s from_ to_ = .normal s1 ∧
      s1.board from_.r from_.c = none ∧
      s1.board to_.r to_.c =
        some (if pc.type = Kind.p ∧ (to_.r.val = 0 ∨ to_.r.val = 7) then
          { type := Kind.q, color := pc.color } else pc) ∧
      (∀ i j, ¬ (i = from_.r ∧ j = from_.c) → ¬ (i = to_.r ∧ j = to_.c) →
        s1.board i j = s.board i j) ∧
      s1.turn = flipTurn s.turn ∧
      s1.history = s.history ++ [rec] ∧ s1.moveList = s.moveList ++ [str] ∧
      rec.from_ = from_ ∧ rec.to_ = to_ ∧ rec.piece = pc ∧
      rec.captured = s.board to_.r to_.c ∧ rec.prevTurn = s.turn := by
  have hft : ¬ (from_.r = to_.r ∧ from_.c = to_.c) := by
    rintro ⟨h1, h2⟩
    apply hne
    cases from_
    cases to_
    simp only [Square.mk.injEq]
    exact ⟨h1, h2⟩
  have htf : ¬ (to_.r = from_.r ∧ to_.c = from_.c) := fun h => hft ⟨h.1.symm, h.2.symm⟩
  refine ⟨_, _, _, makeMove_piece s from_ to_ pc hocc, ?_, ?_, ?_, rfl, rfl, rfl, rfl, rfl,
    rfl, rfl, rfl⟩
  · by_cases h5 : (decide (pc.type = Kind.p) &&
        (decide (to_.r.val = 0) || decide (to_.r.val = 7))) = true
    · simp only [h5, if_true, setCell, hft, and_self, if_false]
    · simp only [h5, if_false, setCell, and_self, if_true, Bool.false_eq_true]
  · by_cases h5 : (decide (pc.type = Kind.p) &&
        (decide (to_.r.val = 0) || decide (to_.r.val = 7))) = true
    · have h6 : pc.type = Kind.p ∧ (to_.r.val = 0 ∨ to_.r.val = 7) := by
        simpa only [Bool.and_eq_true, Bool.or_eq_true, decide_eq_true_eq] using h5
      rw [if_pos h6]
      simp only [h5, if_true, setCell, and_self]
    · have h6 : ¬ (pc.type = Kind.p ∧ (to_.r.val = 0 ∨ to_.r.val = 7)) := by
        simpa only [Bool.and_eq_true, Bool.or_eq_true, decide_eq_true_eq] using h5
      rw [if_neg h6]
      simp only [h5, if_false, setCell, htf, and_self, if_true, Bool.false_eq_true]
  · intro i j h1 h2
    by_cases h5 : (decide (pc.type = Kind.p) &&
        (decide (to_.r.val = 0) || decide (to_.r.val = 7))) = true
    · simp only [h5, if_true, setCell, h1, h2, if_false]
    · simp only [h5, if_false, setCell, h1, h2, Bool.false_eq_true]

/-- C11: for an occupied square `from` and a square `to` among the destinations that
`calcLegalMoves` returns for `from`, `makeMove(from, to)` completes; afterwards `from` is
empty, `to` holds the moved piece (a queen of its colour when a pawn lands on row 0 or 7),
every other square holds what it held before, `history` has grown by one record and
`moveList` by one string with the earlier entries unchanged, and the record stores the
squares, the pre-move piece of `from`, the pre-move occupant of `to` and the pre-move
turn. -/
theorem C11_makeMove_frame (fuel : Nat) (hfuel : 8 ≤ fuel) (s : State) (from_ to_ : Square)
    (pc : Piece) (ms : List Dest) (d : Dest) (hocc : s.board from_.r from_.c = some pc)
    (hms : calcLegalMoves fuel s.board (from_.r.val : Int) (from_.c.val : Int) = .ok ms)
    (hd : d ∈ ms) (hr : d.r = (to_.r.val : Int)) (hc : d.c = (to_.c.val : Int)) :
    ∃ s1 rec str, makeMove s from_ to_ = .normal s1 ∧
      s1.board from_.r from_.c = none ∧
      s1.board to_.r to_.c =
        some (if pc.type = Kind.p ∧ (to_.r.val = 0 ∨ to_.r.val = 7) then
          { type := Kind.q, color := pc.color } else pc) ∧
      (∀ i j, ¬ (i = from_.r ∧ j = from_.c) → ¬ (i = to_.r ∧ j = to_.c) →
        s1.board i j = s.board i j) ∧
      s1.turn = flipTurn s.turn ∧
      s1.history = s.history ++ [rec] ∧ s1.moveList = s.moveList ++ [str] ∧
      rec.from_ = from_ ∧ rec.to_ = to_ ∧ rec.piece = pc ∧
      rec.captured = s.board to_.r to_.c ∧ rec.prevTurn = s.turn := by
  have hread : readCell s.board (from_.r.val : Int) (from_.c.val : Int) = .ok (some pc) := by
    rw [readCell_square, hocc]
  have hne := dest_ne_from fuel hfuel s.board _ _ pc hread ms hms d hd
  exact makeMove_frame s from_ to_ pc hocc (square_ne_of_coords hne hr hc)

/-- C11, on the board with a white pawn on (1,3) and a black rook on (0,4): the pawn takes
the rook, and the rook is the captured piece of the pushed record. -/
theorem C11_makeMove_frame_witness :
    ∃ s1 rec str, makeMove promoState ⟨1, 3⟩ ⟨0, 4⟩ = .normal s1 ∧
      s1.board 1 3 = none ∧
      s1.board 0 4 =
        some (if Kind.p = Kind.p ∧ ((0 : Fin 8).val = 0 ∨ (0 : Fin 8).val = 7) then
          { type := Kind.q, color := Color.w } else ⟨Kind.p, Color.w⟩) ∧
      (∀ i j, ¬ (i = (1 : Fin 8) ∧ j = (3 : Fin 8)) → ¬ (i = (0 : Fin 8) ∧ j = (4 : Fin 8)) →
        s1.board i j = promoState.board i j) ∧
      s1.turn = flipTurn promoState.turn ∧
      s1.history = promoState.history ++ [rec] ∧
      s1.moveList = promoState.moveList ++ [str] ∧
      rec.from_ = ⟨1, 3⟩ ∧ rec.to_ = ⟨0, 4⟩ ∧ rec.piece = ⟨Kind.p, Color.w⟩ ∧
      rec.captured = promoState.board 0 4 ∧ rec.prevTurn = promoState.turn :=
  C11_makeMove_frame 8 (le_refl 8) promoState ⟨1, 3⟩ ⟨0, 4⟩ ⟨Kind.p, Color.w⟩
    [⟨0, 3, false, true⟩, ⟨0, 4, true, true⟩] ⟨0, 4, true, true⟩ (by decide) (by decide)
    (by decide) (by decide) (by decide)

/-- C12: from every state, `newGame` gives the starting position: row 0 holds the black
pieces r, n, b, q, k, b, n, r in columns 0 to 7, row 1 eight black pawns, rows 2 to 5 are
empty, row 6 holds eight white pawns, row 7 the white pieces r, n, b, q, k, b, n, r, so each
colour has 16 pieces; `turn` is white and `history` and `moveList` are empty. -/
theorem C12_newGame_start (s0 : State) :
    List.ofFn (fun c => (newGame s0).board 0 c) =
        [some ⟨Kind.r, Color.b⟩, some ⟨Kind.n, Color.b⟩, some ⟨Kind.b, Color.b⟩,
          some ⟨Kind.q, Color.b⟩, some ⟨Kind.k, Color.b⟩, some ⟨Kind.b, Color.b⟩,
          some ⟨Kind.n, Color.b⟩, some ⟨Kind.r, Color.b⟩] ∧
      (∀ c : Fin 8, (newGame s0).board 1 c = some ⟨Kind.p, Color.b⟩) ∧
      (∀ c : Fin 8, (newGame s0).board 2 c = none ∧ (newGame s0).board 3 c = none ∧
        (newGame s0).board 4 c = none ∧ (newGame s0).board 5 c = none) ∧
      (∀ c : Fin 8, (newGame s0).board 6 c = some ⟨Kind.p, Color.w⟩) ∧
      List.ofFn (fun c => (newGame s0).board 7 c) =
        [some ⟨Kind.r, Color.w⟩, some ⟨Kind.n, Color.w⟩, some ⟨Kind.b, Color.w⟩,
          some ⟨Kind.q, Color.w⟩, some ⟨Kind.k, Color.w⟩, some ⟨Kind.b, Color.w⟩,
          some ⟨Kind.n, Color.w⟩, some ⟨Kind.r, Color.w⟩] ∧
      countColor (newGame s0).board Color.w = 16 ∧
      countColor (newGame s0).board Color.b = 16 ∧
      (newGame s0).turn = Color.w ∧ (newGame s0).history = [] ∧
      (newGame s0).moveList = [] := by
  refine ⟨?_, ?_, ?_, ?_, ?_, ?_, ?_, rfl, rfl, rfl⟩ <;> simp only [newGame] <;> decide

theorem undoTimes_playMoves : ∀ (moves : List (Square × Square)) (s s1 : State),
    playMoves s moves = .normal s1 → undoTimes moves.length s1 = s
  | [], s, s1, h => by
    unfold playMoves at h
    cases h
    rfl
  | m :: rest, s, s1, h => by
    unfold playMoves at h
    cases hm : makeMove s m.1 m.2 with
    | thrown s2 =>
      rw [hm] at h
      cases h
    | normal s2 =>
      rw [hm] at h
      dsimp only at h
      have ih := undoTimes_playMoves rest s2 s1 h
      have hundo : undo s2 = s := by
        cases hpc : s.board m.1.r m.1.c with
        | none =>
          unfold makeMove at hm
          simp only [hpc] at hm
          cases hm
        | some pc =>
          obtain ⟨s3, h3, h4⟩ := undo_makeMove s m.1 m.2 pc hpc
          rw [hm] at h3
          cases h3
          exact h4
      have hsplit : ∀ (n : Nat) (t : State), undoTimes (n + 1) t = undo (undoTimes n t) := by
        intro n
        induction n with
        | zero => intro t; rfl
        | succ k ihk =>
          intro t
          show undoTimes (k + 1) (undo t) = undo (undoTimes k (undo t))
          exact ihk (undo t)
      rw [List.length_cons, hsplit, ih, hundo]

/-- C13: from every state, after any sequence of `n` calls of `makeMove` that all complete
normally, each to a square different from its `from`, `n` calls of `undo` give back the
state the sequence started from: board, turn, history and move list. -/
theorem C13_undo_rewinds (s : State) (moves : List (Square × Square)) (s1 : State)
    (_hne : ∀ m ∈ moves, m.1 ≠ m.2) (h : playMoves s moves = .normal s1) :
    undoTimes moves.length s1 = s :=
  undoTimes_playMoves moves s s1 h

/-- C13, from the starting position: after e2-e4, e7-e5, g1-f3 three calls of `undo` give
back the starting position with white to move and empty history. -/
theorem C13_undo_rewinds_witness :
    undoTimes 3
        (playMoves (newGame emptyState)
          [(⟨6, 4⟩, ⟨4, 4⟩), (⟨1, 4⟩, ⟨3, 4⟩), (⟨7, 6⟩, ⟨5, 5⟩)]).state =
      newGame emptyState :=
  C13_undo_rewinds (newGame emptyState)
    [(⟨6, 4⟩, ⟨4, 4⟩), (⟨1, 4⟩, ⟨3, 4⟩), (⟨7, 6⟩, ⟨5, 5⟩)]
    (playMoves (newGame emptyState)
      [(⟨6, 4⟩, ⟨4, 4⟩), (⟨1, 4⟩, ⟨3, 4⟩), (⟨7, 6⟩, ⟨5, 5⟩)]).state (by decide) rfl

/-- C14: in every state whose `history` is empty, `undo` returns the state unchanged. -/
theorem C14_undo_empty_history (s : State) (h : s.history = []) : undo s = s := by
  unfold undo
  rw [h]
  rfl

/-- C14, right after `newGame`: `undo` changes nothing. -/
theorem C14_undo_empty_history_witness : undo (newGame emptyState) = newGame emptyState :=
  C14_undo_empty_history (newGame emptyState) rfl

/-! ## Totality on the board and the behaviour off the board -/

theorem readCell_inside (board : Board) {rr cc : Int} (h : inside rr cc = true) :
    ∃ v, readCell board rr cc = .ok v := by
  cases hcell : readCell board rr cc with
  | error e => exact absurd h (readCell_error_outside hcell)
  | ok v => exact ⟨v, rfl⟩

theorem calc_total (fuel : Nat) (hfuel : 8 ≤ fuel) (board : Board) (r c : Int)
    (hrc : inside r c = true) :
    ∃ ms, calcLegalMoves fuel board r c = .ok ms ∧ (readCell board r c = .ok none → ms = []) := by
  obtain ⟨v, hv⟩ := readCell_inside board hrc
  cases v with
  | none =>
    refine ⟨[], ?_, fun _ => rfl⟩
    unfold calcLegalMoves
    rw [hv]
  | some p =>
    obtain ⟨ms, h1, -⟩ := calc_sound fuel hfuel board r c p hv
    refine ⟨ms, h1, fun h => ?_⟩
    rw [hv] at h
    cases h

/-- C15: for every board and every on-board square `(r, c)`, with enough loop fuel
`calcLegalMoves` returns a list and raises no `TypeError`, so no row outside `0..7` is ever
indexed; the list is empty when the square is empty; the one read that is not guarded by
`inside`, the pawn's two-step read of `board[r + 2*dir][c]` on its start row, is at an
on-board square; and the ray loop from `(r, c)` returns in every one of the eight
directions. -/
theorem C15_total_on_board (fuel : Nat) (hfuel : 8 ≤ fuel) (board : Board) (r c : Int)
    (hrc : inside r c = true) :
    ∃ ms, calcLegalMoves fuel board r c = .ok ms ∧
      (readCell board r c = .ok none → ms = []) ∧
      (∀ p, readCell board r c = .ok (some p) → p.type = Kind.p →
        r = (if p.color = Color.w then 6 else 1) →
        inside (r + 2 * (if p.color = Color.w then -1 else 1)) c = true) ∧
      (∀ (col : Color) (dr dc : Int), (dr = -1 ∨ dr = 0 ∨ dr = 1) →
        (dc = -1 ∨ dc = 0 ∨ dc = 1) → ¬ (dr = 0 ∧ dc = 0) →
        ∃ cells, rayLoop board col dr dc fuel (r + dr) (c + dc) [] = .ok cells) := by
  obtain ⟨ms, h1, h2⟩ := calc_total fuel hfuel board r c hrc
  refine ⟨ms, h1, h2, ?_, ?_⟩
  · intro p _ _ hstart
    rw [inside_iff] at hrc ⊢
    revert hstart
    cases p.color <;> simp <;> omega
  · intro col dr dc hdr hdc hne
    obtain ⟨cells, h3, -⟩ := rayLoop_spec board col r c dr dc ⟨hdr, hdc, hne⟩ hrc fuel 1 []
      (le_refl 1) (by omega) (by omega) (by intro j hj1 hj2; omega)
    rw [one_mul, one_mul, List.nil_append] at h3
    exact ⟨cells, h3⟩

/-- C15, in the starting position: the empty square (4,4) gives the empty list. -/
theorem C15_total_on_board_witness :
    calcLegalMoves 8 startBoard 4 4 = .ok [] ∧
      ∃ ms, calcLegalMoves 8 startBoard 4 4 = .ok ms ∧
        (readCell startBoard 4 4 = .ok none → ms = []) ∧
        (∀ p, readCell startBoard 4 4 = .ok (some p) → p.type = Kind.p →
          (4 : Int) = (if p.color = Color.w then 6 else 1) →
          inside (4 + 2 * (if p.color = Color.w then -1 else 1)) 4 = true) ∧
        (∀ (col : Color) (dr dc : Int), (dr = -1 ∨ dr = 0 ∨ dr = 1) →
          (dc = -1 ∨ dc = 0 ∨ dc = 1) → ¬ (dr = 0 ∧ dc = 0) →
          ∃ cells, rayLoop startBoard col dr dc 8 (4 + dr) (4 + dc) [] = .ok cells) :=
  ⟨by decide, C15_total_on_board 8 (le_refl 8) startBoard 4 4 (by decide)⟩

/-- C16, refuted as stated: the square (0,8) is off the board, and `calcLegalMoves`
returns the empty list for it instead of failing. -/
theorem C16_off_board_counterexample :
    inside 0 8 = false ∧ calcLegalMoves 8 startBoard 0 8 = .ok [] := by
  decide

/-- C16, amended: for a square off the board, `calcLegalMoves` fails with a `TypeError`
when the row is outside `0..7`, and returns the empty list when the row is in `0..7` and
only the column is outside. -/
theorem C16_off_board_row_fails (fuel : Nat) (board : Board) (r c : Int)
    (hout : inside r c = false) :
    calcLegalMoves fuel board r c =
      if 0 ≤ r ∧ r < 8 then .ok [] else .error Fault.typeError := by
  have hnot : ¬ (0 ≤ r ∧ r < 8 ∧ 0 ≤ c ∧ c < 8) := by
    rw [← inside_iff, hout]
    exact Bool.false_ne_true
  unfold calcLegalMoves readCell
  by_cases hr : 0 ≤ r ∧ r < 8
  · have hc : ¬ (0 ≤ c ∧ c < 8) := fun h => hnot ⟨hr.1, hr.2, h.1, h.2⟩
    rw [dif_pos hr, dif_neg hc, if_pos hr]
  · rw [dif_neg hr, if_neg hr]

/-- C16, amended, at the squares (-1,3) and (0,8) of the starting position: the first
fails, the second gives the empty list. -/
theorem C16_off_board_row_fails_witness :
    calcLegalMoves 8 startBoard (-1) 3 = .error Fault.typeError ∧
      calcLegalMoves 8 startBoard 0 8 =
        if (0 : Int) ≤ 0 ∧ (0 : Int) < 8 then .ok [] else .error Fault.typeError :=
  ⟨by decide, C16_off_board_row_fails 8 startBoard 0 8 (by decide)⟩

/-! ## Moves that were not generated, and the written move -/

/-- C17, refuted as stated: with a white pawn on (1,3), `makeMove` from (1,3) to (1,3)
completes and leaves that square empty, so `to` does not hold the moved piece. -/
theorem C17_same_square_counterexample :
    promoState.board 1 3 = some ⟨Kind.p, Color.w⟩ ∧
      ∃ s1, makeMove promoState ⟨1, 3⟩ ⟨1, 3⟩ = .normal s1 ∧ s1.board 1 3 = none :=
  ⟨by decide, _, rfl, by decide⟩

/-- C17, amended: in every state, for every occupied square `from` and every square `to`
different from `from`, whatever `calcLegalMoves` returns and whoever is to move,
`makeMove(from, to)` completes; afterwards `to` holds the moved piece (a queen of its
colour when a pawn lands on row 0 or 7), `from` is empty, `turn` is flipped and one record
has been pushed on `history`. -/
theorem C17_makeMove_unconditional (s : State) (from_ to_ : Square) (pc : Piece)
    (hocc : s.board from_.r from_.c = some pc) (hne : from_ ≠ to_) :
    ∃ s1 rec, makeMove s from_ to_ = .normal s1 ∧
      s1.board to_.r to_.c =
        some (if pc.type = Kind.p ∧ (to_.r.val = 0 ∨ to_.r.val = 7) then
          { type := Kind.q, color := pc.color } else pc) ∧
      s1.board from_.r from_.c = none ∧
      s1.turn = flipTurn s.turn ∧
      s1.history = s.history ++ [rec] := by
  obtain ⟨s1, rec, str, h1, h2, h3, -, h5, h6, -⟩ := makeMove_frame s from_ to_ pc hocc hne
  exact ⟨s1, rec, h1, h3, h2, h5, h6⟩

/-- C17, amended, in the starting position with white to move: the black rook on (0,0) is
moved to (4,4), a move that `calcLegalMoves` does not generate. -/
theorem C17_makeMove_unconditional_witness :
    calcLegalMoves 8 (newGame emptyState).board 0 0 = .ok [] ∧
      (newGame emptyState).turn = Color.w ∧
      ∃ s1 rec, makeMove (newGame emptyState) ⟨0, 0⟩ ⟨4, 4⟩ = .normal s1 ∧
        s1.board 4 4 =
          some (if Kind.r = Kind.p ∧ ((4 : Fin 8).val = 0 ∨ (4 : Fin 8).val = 7) then
            { type := Kind.q, color := Color.b } else ⟨Kind.r, Color.b⟩) ∧
        s1.board 0 0 = none ∧
        s1.turn = flipTurn (newGame emptyState).turn ∧
        s1.history = (newGame emptyState).history ++ [rec] :=
  ⟨by decide, rfl,
    C17_makeMove_unconditional (newGame emptyState) ⟨0, 0⟩ ⟨4, 4⟩ ⟨Kind.r, Color.b⟩
      (by decide) (by decide)⟩

/-- C18: of the three strings in the comment of `toAlgebraic`, "e2-e4" is returned for the
quiet move from (6,4) to (4,4) and "e7-e8=Q" for the promoting move from (1,4) to (0,4),
but the capture by the e-file pawn on (4,4) onto (3,3) is written "e4xd5", and no call of
`toAlgebraic` returns "exd5". -/
theorem C18_comment_examples :
    toAlgebraic ⟨6, 4⟩ ⟨4, 4⟩ Kind.p none none = "e2-e4" ∧
      toAlgebraic ⟨1, 4⟩ ⟨0, 4⟩ Kind.p none (some "q") = "e7-e8=Q" ∧
      toAlgebraic ⟨4, 4⟩ ⟨3, 3⟩ Kind.p (some ⟨Kind.p, Color.b⟩) none = "e4xd5" ∧
      ∀ (from_ to_ : Square) (ty : Kind) (captured : Option Piece)
        (promotion : Option String),
        toAlgebraic from_ to_ ty captured promotion ≠ "exd5" := by
  refine ⟨by decide, by decide, by decide, ?_⟩
  intro from_ to_ ty captured promotion h
  have hlen := congrArg (fun t : String => t.data.length) h
  rw [toAlgebraic_eq] at hlen
  simp only [List.length_append, List.length_cons, List.length_nil] at hlen
  have h4 : "exd5".data.length = 4 := by decide
  omega

/-- C20: in every state, for an empty square `from` and any square `to`, `makeMove(from,
to)` ends by a thrown `TypeError`; `history`, `moveList` and `turn` are as before, square
`to` is empty afterwards, and every other square holds what it held before. -/
theorem C20_makeMove_empty_from (s : State) (from_ to_ : Square)
    (hempty : s.board from_.r from_.c = none) :
    ∃ s1, makeMove s from_ to_ = .thrown s1 ∧
      s1.history = s.history ∧ s1.moveList = s.moveList ∧ s1.turn = s.turn ∧
      s1.board to_.r to_.c = none ∧
      ∀ i j, ¬ (i = to_.r ∧ j = to_.c) → s1.board i j = s.board i j := by
  refine ⟨{ s with board := setCell (setCell s.board to_.r to_.c none) from_.r from_.c none },
    ?_, rfl, rfl, rfl, ?_, ?_⟩
  · unfold makeMove
    simp only [hempty]
  · simp only [setCell, and_self, if_true, ite_self]
  · intro i j hij
    by_cases h1 : i = from_.r ∧ j = from_.c
    · simp only [setCell, h1, and_self, if_true]
      rw [hempty]
    · simp only [setCell, h1, hij, if_false]

/-- C20, in the starting position: `makeMove` from the empty square (4,4) to (6,4) throws
and the white pawn that stood on (6,4) is gone. -/
theorem C20_makeMove_empty_from_witness :
    (newGame emptyState).board 6 4 = some ⟨Kind.p, Color.w⟩ ∧
      ∃ s1, makeMove (newGame emptyState) ⟨4, 4⟩ ⟨6, 4⟩ = .thrown s1 ∧
        s1.history = (newGame emptyState).history ∧
        s1.moveList = (newGame emptyState).moveList ∧
        s1.turn = (newGame emptyState).turn ∧
        s1.board 6 4 = none ∧
        ∀ i j, ¬ (i = (6 : Fin 8) ∧ j = (4 : Fin 8)) →
          s1.board i j = (newGame emptyState).board i j :=
  ⟨by decide, C20_makeMove_empty_from (newGame emptyState) ⟨4, 4⟩ ⟨6, 4⟩ (by decide)⟩

theorem calc_capture (fuel : Nat) (hfuel : 8 ≤ fuel) (board : Board) (r c : Int) (p : Piece)
    (hp : readCell board r c = .ok (some p)) :
    ∃ ms, calcLegalMoves fuel board r c = .ok ms ∧
      ∀ d ∈ ms, (d.capture = true ↔ ∃ q, readCell board d.r d.c = .ok (some q)) := by
  have hrc := inside_of_readCell_some hp
  obtain ⟨ty, col⟩ := p
  cases ty with
  | p =>
    obtain ⟨ms, h1, h2⟩ := pawn_spec board col r c hrc
    refine ⟨ms, by rw [calc_pawn fuel board r c _ hp rfl, h1], fun d hd => ?_⟩
    rcases (h2 d).mp hd with (⟨rfl, -, h4⟩ | ⟨rfl, -, -, h4⟩) | ⟨dc, -, rfl, -, q, h4, -⟩
    · dsimp only
      rw [h4]
      simp
    · dsimp only
      rw [h4]
      simp
    · dsimp only
      rw [h4]
      simp
  | n =>
    obtain ⟨ms, h1, h2, -⟩ := stepMoves_squares board col r c knightOffsets
    refine ⟨ms, ?_, fun d hd => lands_capture_iff (h2 d hd)⟩
    unfold calcLegalMoves
    rw [hp]
    exact h1
  | k =>
    obtain ⟨ms, h1, h2, -⟩ := stepMoves_squares board col r c queenDirs
    refine ⟨ms, ?_, fun d hd => lands_capture_iff (h2 d hd)⟩
    unfold calcLegalMoves
    rw [hp]
    exact h1
  | b =>
    obtain ⟨ms, h1, h2, -⟩ := castRays_squares fuel hfuel board col r c hrc bishopDirs
      unitDir_of_bishopDirs
    refine ⟨ms, ?_, fun d hd => lands_capture_iff (h2 d hd)⟩
    unfold calcLegalMoves
    rw [hp]
    exact h1
  | r =>
    obtain ⟨ms, h1, h2, -⟩ := castRays_squares fuel hfuel board col r c hrc rookDirs
      unitDir_of_rookDirs
    refine ⟨ms, ?_, fun d hd => lands_capture_iff (h2 d hd)⟩
    unfold calcLegalMoves
    rw [hp]
    exact h1
  | q =>
    obtain ⟨ms, h1, h2, -⟩ := castRays_squares fuel hfuel board col r c hrc queenDirs
      unitDir_of_queenDirs
    refine ⟨ms, ?_, fun d hd => lands_capture_iff (h2 d hd)⟩
    unfold calcLegalMoves
    rw [hp]
    exact h1

/-- C19: for a piece of any kind on an on-board square, with enough loop fuel
`calcLegalMoves` returns a list in which every destination has `capture = true` exactly
when its square is occupied, the occupant then being of the other colour; and `makeMove` to
such a destination pushes a string whose separator, its third character, is `x` when the
flag is on and `-` when it is off. -/
theorem C19_capture_flag (fuel : Nat) (hfuel : 8 ≤ fuel) (s : State) (from_ : Square)
    (p : Piece) (hp : s.board from_.r from_.c = some p) :
    ∃ ms, calcLegalMoves fuel s.board (from_.r.val : Int) (from_.c.val : Int) = .ok ms ∧
      ∀ d ∈ ms,
        (d.capture = true ↔ ∃ q, readCell s.board d.r d.c = .ok (some q)) ∧
        (∀ q, readCell s.board d.r d.c = .ok (some q) → q.color ≠ p.color) ∧
        ∀ to_ : Square, (to_.r.val : Int) = d.r → (to_.c.val : Int) = d.c →
          ∃ s1 str, makeMove s from_ to_ = .normal s1 ∧
            s1.moveList = s.moveList ++ [str] ∧
            str.data.get? 2 = some (if d.capture = true then 'x' else '-') := by
  have hread : readCell s.board (from_.r.val : Int) (from_.c.val : Int) = .ok (some p) := by
    rw [readCell_square, hp]
  obtain ⟨ms, h1, h2⟩ := calc_capture fuel hfuel s.board _ _ p hread
  obtain ⟨ms1, h3, h4⟩ := calc_sound fuel hfuel s.board _ _ p hread
  rw [h1] at h3
  cases h3
  refine ⟨ms, h1, fun d hd => ⟨h2 d hd, fun q hq => ?_, fun to_ hr hc => ?_⟩⟩
  · rcases (h4 d hd).2 with h5 | ⟨q1, h5, h6⟩
    · rw [hq] at h5
      cases h5
    · rw [hq] at h5
      cases h5
      exact h6
  · refine ⟨_, _, makeMove_piece s from_ to_ p hp, rfl, ?_⟩
    rw [toAlgebraic_eq]
    have hcap : (s.board to_.r to_.c).isSome = d.capture := by
      have h5 := h2 d hd
      rw [← hr, ← hc, readCell_square] at h5
      cases hb : s.board to_.r to_.c with
      | none =>
        cases hcapd : d.capture with
        | false => rfl
        | true =>
          obtain ⟨q, hq⟩ := h5.mp hcapd
          rw [hb] at hq
          cases hq
      | some q =>
        rw [h5.mpr ⟨q, by rw [hb]⟩]
        rfl
    rw [hcap]
    rfl

/-- C19, on the board with a white pawn on (6,4) and a black pawn on (5,3): the capture on
(5,3) is flagged and the forward moves are not, and taking on (5,3) is written "e2xd3". -/
theorem C19_capture_flag_witness :
    calcLegalMoves 8 pawnCaptureBoard 6 4 =
        .ok [⟨5, 4, false, false⟩, ⟨4, 4, false, false⟩, ⟨5, 3, true, false⟩] ∧
      (makeMove ⟨pawnCaptureBoard, Color.w, [], []⟩ ⟨6, 4⟩ ⟨5, 3⟩).state.moveList =
        ["e2xd3"] ∧
      ∃ ms, calcLegalMoves 8 (State.mk pawnCaptureBoard Color.w [] []).board
          (((6 : Fin 8).val : Nat) : Int) (((4 : Fin 8).val : Nat) : Int) = .ok ms ∧
        ∀ d ∈ ms,
          (d.capture = true ↔ ∃ q, readCell pawnCaptureBoard d.r d.c = .ok (some q)) ∧
          (∀ q, readCell pawnCaptureBoard d.r d.c = .ok (some q) → q.color ≠ Color.w) ∧
          ∀ to_ : Square, (to_.r.val : Int) = d.r → (to_.c.val : Int) = d.c →
            ∃ s1 str, makeMove ⟨pawnCaptureBoard, Color.w, [], []⟩ ⟨6, 4⟩ to_ = .normal s1 ∧
              s1.moveList = [] ++ [str] ∧
              str.data.get? 2 = some (if d.capture = true then 'x' else '-') :=
  ⟨by decide, by decide,
    C19_capture_flag 8 (le_refl 8) ⟨pawnCaptureBoard, Color.w, [], []⟩ ⟨6, 4⟩
      ⟨Kind.p, Color.w⟩ (by decide)⟩

end ChessGame
